import Mathlib

/-!
Verification of the Naive Bayes sentiment classifier in
`src/SentimentAnalyzer.jsx` (class `NaiveBayesClassifier`, lines 46-101).

The JavaScript is shallowly embedded:
* strings are `List Char`; the ASCII-relevant fragment of `toLowerCase`,
  of the regexes `/[^\w\s]/g` and `/\s+/` is modelled character by character;
* the per-category JS objects `wordCounts[c]` become insertion-ordered
  association lists, the JS `Set` `vocab` an insertion-ordered duplicate-free
  list, exactly as the mutations in `train` build them;
* property access on those `{}`-created objects walks the prototype chain:
  the embedding has two layers — a prototype-free layer (`Model`, `train`,
  `predict`) that is exact as long as neither the corpus nor the input text
  contains the tokens `"constructor"` or `"__proto__"`, and a
  prototype-aware layer (`PModel`, `trainP`, `predictP` over `ProtoObj` and
  `JsNum`) in which reads of those keys hit inherited truthy objects, the
  `__proto__` setter silently drops writes, and `NaN` propagates through
  `+`, `/`, `Math.log` and the always-false `NaN` comparisons;
* JS numbers in `predict` are modelled as `EReal` together with an explicit
  `NaN` point (`JsNum`): in the prototype-free layer every quantity the code
  feeds to `Math.log` is either a positive real or `+Infinity` (numerators
  are at least `0.1`, denominators at least `0`), so there `EReal` alone is
  an exact model of the values that occur.
-/

namespace Sentimind

/-- A term/token: a JS string, modelled as its list of characters. -/
abbrev Term := List Char

/-- JS `String.prototype.toLowerCase` on the ASCII fragment: `A`-`Z` map to
`a`-`z`, every other character is returned unchanged. -/
def jsToLower (c : Char) : Char :=
  if c.toNat ≥ 65 ∧ c.toNat ≤ 90 then Char.ofNat (c.toNat + 32) else c

/-- An ASCII letter (lower or upper case). -/
def isLetterB (c : Char) : Bool :=
  (97 ≤ c.toNat && c.toNat ≤ 122) || (65 ≤ c.toNat && c.toNat ≤ 90)

/-- An ASCII digit. -/
def isDigitB (c : Char) : Bool :=
  48 ≤ c.toNat && c.toNat ≤ 57

/-- JS regex class `\w` (no `u` flag): ASCII letters, ASCII digits and the
underscore.  Note that `_` is a word character for the regex engine. -/
def isWordChar (c : Char) : Bool :=
  isLetterB c || isDigitB c || c.toNat == 95

/-- JS regex class `\s`: tab, line feed, vertical tab, form feed, carriage
return, space, and the Unicode space separators matched by the engine. -/
def isWsChar (c : Char) : Bool :=
  (9 ≤ c.toNat && c.toNat ≤ 13) || c.toNat == 32 || c.toNat == 160 ||
    c.toNat == 5760 || (8192 ≤ c.toNat && c.toNat ≤ 8202) ||
    c.toNat == 8232 || c.toNat == 8233 || c.toNat == 8239 ||
    c.toNat == 8287 || c.toNat == 12288 || c.toNat == 65279

/-- Prepend a character to the first field of a split result. -/
def consHead (c : Char) : List (List Char) → List (List Char)
  | [] => [[c]]
  | t :: ts => (c :: t) :: ts

/-- JS `str.split(/\s+/)`.  The boolean records whether we are scanning the
continuation of a whitespace run (in which case further whitespace extends
the same separator instead of opening a new empty field).  Matches the JS
semantics: a leading run produces one empty first field, a trailing run one
empty last field, and `"".split` yields `[""]`. -/
def splitWs : Bool → List Char → List (List Char)
  | _, [] => [[]]
  | afterWs, c :: cs =>
    if isWsChar c then
      if afterWs then splitWs true cs else [] :: splitWs true cs
    else consHead c (splitWs false cs)

/-- `NaiveBayesClassifier.tokenize` (line 54-57):
`if (!text) return [];`
`return text.toLowerCase().replace(/[^\w\s]/g, '').split(/\s+/).filter(w => w.length > 2);` -/
def tokenize (text : List Char) : List Term :=
  if text = [] then []
  else
    ((splitWs false ((text.map jsToLower).filter
        (fun c => isWordChar c || isWsChar c))).filter
      (fun w => w.length > 2))

/-- Split a character list at every character satisfying `p`, keeping the
(possibly empty) fields between consecutive matches. -/
def splitEvery (p : Char → Bool) : List Char → List (List Char)
  | [] => [[]]
  | c :: cs => if p c then [] :: splitEvery p cs else consHead c (splitEvery p cs)

/-- Modelled from the spec (§4.1 Tokenizer): lower-case the text; strip every
character that is not a letter, digit, or whitespace; split on runs of
whitespace (splitting at every whitespace character and discarding the empty
fields is exactly splitting on runs); discard tokens of length ≤ 2. -/
def specTokenize (text : List Char) : List Term :=
  (((splitEvery isWsChar ((text.map jsToLower).filter
        (fun c => isLetterB c || isDigitB c || isWsChar c))).filter
      (fun w => !w.isEmpty)).filter (fun w => w.length > 2))

/-- The spec tokenizer amended to keep the underscore as well, i.e. to strip
exactly the characters that are not word characters (letter, digit or
underscore) and not whitespace, matching the regex `/[^\w\s]/g`. -/
def specTokenizeW (text : List Char) : List Term :=
  (((splitEvery isWsChar ((text.map jsToLower).filter
        (fun c => isLetterB c || isDigitB c || c.toNat == 95 || isWsChar c))).filter
      (fun w => !w.isEmpty)).filter (fun w => w.length > 2))

/-- The three sentiment categories (`['Positive', 'Negative', 'Neutral']`). -/
inductive Category : Type where
  | Positive : Category
  | Negative : Category
  | Neutral : Category
deriving DecidableEq, Repr

/-- A training document: a text together with its (valid) label. -/
structure Doc : Type where
  text : List Char
  label : Category
deriving DecidableEq

/-- Classifier state in the prototype-free fragment: `wordCounts` per
category (JS object as insertion ordered association list), `classCounts`,
`vocab` (JS `Set` as insertion ordered duplicate-free list) and `totalDocs`.
Exact as long as no `"constructor"`/`"__proto__"` token occurs; `PModel`
below refines `wordCounts` with full prototype-chain semantics. -/
structure Model : Type where
  wordCounts : Category → List (Term × Nat)
  classCounts : Category → Nat
  vocab : List Term
  totalDocs : Nat

/-- The constructor state (lines 47-52): empty maps, zero counts. -/
def emptyModel : Model :=
  { wordCounts := fun _ => [], classCounts := fun _ => 0, vocab := [], totalDocs := 0 }

/-- The state to which `train` resets the classifier (lines 60-63). -/
def resetModel : Model :=
  { wordCounts := fun _ => [], classCounts := fun _ => 0, vocab := [], totalDocs := 0 }

/-- First-match lookup in an association list, defaulting to `0`
(JS `obj[token] || 0` in the prototype-free fragment: exact for every key
other than `"constructor"` and `"__proto__"`, whose missing-key reads
actually inherit truthy objects — see `protoRead` in the prototype-aware
layer below). -/
def lookupD (l : List (Term × Nat)) (t : Term) : Nat :=
  match l with
  | [] => 0
  | (k, v) :: rest => if k = t then v else lookupD rest t

/-- The keys of an association list (JS `Object.keys`). -/
def keys (l : List (Term × Nat)) : List Term := l.map Prod.fst

/-- Sum of the values of an association list
(JS `Object.values(obj).reduce((a, b) => a + b, 0)`). -/
def valuesSum (l : List (Term × Nat)) : Nat := (l.map Prod.snd).sum

/-- JS `obj[token] = (obj[token] || 0) + 1` in the prototype-free fragment:
bump the first entry with the given key, or append a fresh entry with
count 1.  Exact for every key other than `"constructor"` and `"__proto__"`
(see `protoIncr` below for those; `protoIncr_mapNum` proves the two agree on
all other keys). -/
def assocIncr (l : List (Term × Nat)) (t : Term) : List (Term × Nat) :=
  match l with
  | [] => [(t, 1)]
  | (k, v) :: rest => if k = t then (k, v + 1) :: rest else (k, v) :: assocIncr rest t

/-- JS `Set.prototype.add`: append if not already a member. -/
def setAdd (v : List Term) (t : Term) : List Term :=
  if t ∈ v then v else v ++ [t]

/-- The body of the `tokens.forEach(token => ...)` loop in `train`
(lines 71-74): add the token to the vocabulary and bump its count in the
label's term-frequency object. -/
def tokStep (lab : Category) (acc : Model) (t : Term) : Model :=
  { acc with
    vocab := setAdd acc.vocab t
    wordCounts :=
      Function.update acc.wordCounts lab (assocIncr (acc.wordCounts lab) t) }

/-- The body of the `documents.forEach(doc => ...)` loop in `train`
(lines 65-75). -/
def trainDoc (m : Model) (d : Doc) : Model :=
  let m1 : Model :=
    { m with
      totalDocs := m.totalDocs + 1
      classCounts := Function.update m.classCounts d.label (m.classCounts d.label + 1) }
  (tokenize d.text).foldl (tokStep d.label) m1

/-- Term frequency of `t` for category `c` over a corpus: total number of
occurrences of `t` among the tokenized texts of the documents labelled `c`. -/
def tfSem (docs : List Doc) (c : Category) (t : Term) : Nat :=
  (docs.map (fun d => if d.label = c then (tokenize d.text).count t else 0)).sum

/-- Total term count for category `c` over a corpus. -/
def ttSem (docs : List Doc) (c : Category) : Nat :=
  (docs.map (fun d => if d.label = c then (tokenize d.text).length else 0)).sum

/-- `NaiveBayesClassifier.train` (lines 59-76) in the prototype-free
fragment: reset all statistics, then fold the document loop over the corpus
(exact under `cleanCorpus`; see `trainP` for the general case). -/
def train (documents : List Doc) : Model :=
  documents.foldl trainDoc resetModel

/-- JS `(x || d)` for a count `x` and a truthy default: a zero count is falsy
and is replaced by the default. -/
def jsOrD (n : Nat) (d : ℝ) : ℝ := if n = 0 then d else (n : ℝ)

/-- JS division as it occurs in `predict`: the numerator is always a positive
real and the denominator a nonnegative real, so the quotient is an ordinary
real when the denominator is nonzero and `+Infinity` when it is zero.
(`NaN` would require a zero or infinite numerator, which never occurs.) -/
noncomputable def jsDiv (a b : ℝ) : EReal :=
  if b = 0 then ⊤ else ((a / b : ℝ) : EReal)

/-- JS `Math.log` on the arguments `predict` produces: a positive real, whose
logarithm is a real, or `+Infinity`, whose logarithm is `+Infinity`. -/
noncomputable def jsLog (x : EReal) : EReal :=
  if x = ⊤ then ⊤ else ((Real.log x.toReal : ℝ) : EReal)

/-- The score loop body of `predict` (lines 86-92) for one category, in the
prototype-free fragment (exact under `cleanCorpus`/`cleanText`, where no
`NaN` arises; see `scoreP` for the general case):
`let logProb = Math.log((this.classCounts[category] || 0.1) / (this.totalDocs || 1));`
then for each token
`logProb += Math.log((tokenCount + 1) / (classTotalWords + vocabSize));`. -/
noncomputable def scoreOf (m : Model) (tokens : List Term) (c : Category) : EReal :=
  tokens.foldl
    (fun acc t =>
      acc + jsLog (jsDiv ((lookupD (m.wordCounts c) t : ℝ) + 1)
        ((valuesSum (m.wordCounts c) : ℝ) + (m.vocab.length : ℝ))))
    (jsLog (jsDiv (jsOrD (m.classCounts c) 0.1) (jsOrD m.totalDocs 1)))

/-- `NaiveBayesClassifier.predict` (lines 78-100) in the prototype-free
fragment (see `predictP` for the general case), with the
`categories.forEach` loop over `['Positive', 'Negative', 'Neutral']` unrolled:
the running best starts as `('Neutral', -Infinity)` and is replaced exactly
when a category's score is strictly greater than the running maximum; the
returned record carries the winning label and all three scores. -/
noncomputable def predict (m : Model) (text : List Char) :
    Category × (Category → EReal) :=
  let tokens := tokenize text
  let s : Category → EReal := scoreOf m tokens
  let b1 : Category × EReal :=
    if s Category.Positive > (⊥ : EReal) then (Category.Positive, s Category.Positive)
    else (Category.Neutral, ⊥)
  let b2 : Category × EReal :=
    if s Category.Negative > b1.2 then (Category.Negative, s Category.Negative) else b1
  let b3 : Category × EReal :=
    if s Category.Neutral > b2.2 then (Category.Neutral, s Category.Neutral) else b2
  (b3.1, s)

/-- Modelled from the spec (C4): the score of a category is
`log(max(categoryDocumentCount, 0.1) / max(totalDocumentCount, 1))` plus, for
each token occurrence, `log((termFrequency + 1) / (totalTermCountInCategory +
vocabularySize))`, where `totalTermCountInCategory` is the sum of the
category's term-frequency counts and `vocabularySize` the number of distinct
terms in the vocabulary. -/
noncomputable def specScore (m : Model) (tokens : List Term) (c : Category) : EReal :=
  jsLog (jsDiv (max ((m.classCounts c : ℝ)) 0.1) (max ((m.totalDocs : ℝ)) 1)) +
    (tokens.map
      (fun t =>
        jsLog (jsDiv ((lookupD (m.wordCounts c) t : ℝ) + 1)
          ((valuesSum (m.wordCounts c) : ℝ) + (m.vocab.dedup.length : ℝ))))).sum

/-- The score as a plain real number; it agrees with `scoreOf` whenever no
division by zero occurs (in particular whenever the vocabulary is nonempty). -/
noncomputable def realScore (m : Model) (tokens : List Term) (c : Category) : ℝ :=
  Real.log (jsOrD (m.classCounts c) 0.1 / jsOrD m.totalDocs 1) +
    (tokens.map
      (fun t =>
        Real.log (((lookupD (m.wordCounts c) t : ℝ) + 1) /
          ((valuesSum (m.wordCounts c) : ℝ) + (m.vocab.length : ℝ))))).sum

/-! ## Prototype-aware object model

JavaScript property access on the `{}`-created objects `wordCounts[c]` walks
the prototype chain: a read of a missing key falls through to
`Object.prototype`, where `"constructor"` is an own data property (the
`Object` function) and `"__proto__"` is an accessor returning the prototype —
both truthy objects — and an assignment to `"__proto__"` invokes the
inherited setter, which silently ignores any non-object value.  `tokenize`
lower-cases its output, and the only all-lowercase `Object.prototype`
property names that are pure `\w` of length > 2 are exactly `"constructor"`
and `"__proto__"`, so these are the only token keys with inherited behaviour.

Values stored by `train` are either genuine counts or the non-numeric
strings produced by `truthy_non_number + 1` (string concatenation).  All such
strings behave identically in this program — truthy, `+ 1` yields another
such string, and `ToNumber` of them is `NaN` — so they are collapsed into the
single constructor `JsVal.objStr`; likewise every inherited truthy object is
read as `ReadVal.tobj`, since the code only ever tests it for truthiness and
feeds it to `+ 1`. -/

/-- The token key `"constructor"`, an own property of `Object.prototype`. -/
def constructorKey : Term := "constructor".toList

/-- The token key `"__proto__"`, the prototype accessor. -/
def protoAccessorKey : Term := "__proto__".toList

/-- Keys at which a fresh object inherits a truthy value from
`Object.prototype` (restricted to possible tokens, see the section header). -/
def protoKeyB (t : Term) : Bool :=
  t == constructorKey || t == protoAccessorKey

/-- A value stored as an own property by this program: a count, or one of the
collapsed non-numeric strings. -/
inductive JsVal : Type where
  | num : Nat → JsVal
  | objStr : JsVal
deriving DecidableEq, Repr, Inhabited

/-- Own properties of a `{}`-created object, in insertion order. -/
abbrev ProtoObj := List (Term × JsVal)

/-- First-match lookup among the own properties. -/
def lookupV (l : ProtoObj) (t : Term) : Option JsVal :=
  match l with
  | [] => none
  | (k, v) :: rest => if k = t then some v else lookupV rest t

/-- What a property read can produce: a number, or a truthy non-number (an
own collapsed string or an inherited object). -/
inductive ReadVal : Type where
  | num : Nat → ReadVal
  | tobj : ReadVal
deriving DecidableEq, Repr, Inhabited

/-- JS property READ `obj[t]`: own property first, then the prototype chain
(`"constructor"` and `"__proto__"` inherit truthy objects), else `undefined`
(`none`). -/
def protoRead (l : ProtoObj) (t : Term) : Option ReadVal :=
  match lookupV l t with
  | some (JsVal.num n) => some (ReadVal.num n)
  | some JsVal.objStr => some ReadVal.tobj
  | none => if protoKeyB t then some ReadVal.tobj else none

/-- JS `(x || 0) + 1` on a read result: a nonzero count is bumped, a zero or
missing value gives 1, and a truthy non-number concatenates into a string. -/
def protoIncrVal : Option ReadVal → JsVal
  | some (ReadVal.num n) => if n = 0 then JsVal.num 1 else JsVal.num (n + 1)
  | some ReadVal.tobj => JsVal.objStr
  | none => JsVal.num 1

/-- Overwrite-or-append an own property. -/
def setV (l : ProtoObj) (t : Term) (v : JsVal) : ProtoObj :=
  match l with
  | [] => [(t, v)]
  | (k, w) :: rest => if k = t then (k, v) :: rest else (k, w) :: setV rest t v

/-- JS property WRITE `obj[t] = v`: an assignment to `"__proto__"` hits the
inherited accessor, whose setter silently discards every non-object value
(and this program only ever assigns numbers and strings); any other key
becomes or updates an own property. -/
def protoSet (l : ProtoObj) (t : Term) (v : JsVal) : ProtoObj :=
  if t = protoAccessorKey then l else setV l t v

/-- `obj[t] = (obj[t] || 0) + 1` with full prototype-chain semantics. -/
def protoIncr (l : ProtoObj) (t : Term) : ProtoObj :=
  protoSet l t (protoIncrVal (protoRead l t))

/-- The own-property keys (JS `Object.keys`). -/
def keysV (l : ProtoObj) : List Term := l.map Prod.fst

/-- `Object.values(obj).reduce((a, b) => a + b, 0)`: a number when every own
value is a number, and a (collapsed) string as soon as any string value joins
the chain of `+`. -/
def valuesSumP (l : ProtoObj) : JsVal :=
  if l.all (fun p => match p.2 with | JsVal.num _ => true | JsVal.objStr => false) then
    JsVal.num ((l.map (fun p => match p.2 with | JsVal.num n => n | JsVal.objStr => 0)).sum)
  else JsVal.objStr

/-- A JS number as `predict` computes with: an extended real, or `NaN`
(produced exactly when a non-numeric string enters `+`, `/` or `Math.log`). -/
inductive JsNum : Type where
  | num : EReal → JsNum
  | nan : JsNum

/-- JS `+` on score accumulators: `NaN` is absorbing. -/
noncomputable def jsAdd : JsNum → JsNum → JsNum
  | JsNum.num a, JsNum.num b => JsNum.num (a + b)
  | _, _ => JsNum.nan

/-- JS `>` as used by the selection loop: any comparison involving `NaN` is
false. -/
def jsGt : JsNum → JsNum → Prop
  | JsNum.num a, JsNum.num b => b < a
  | _, _ => False

noncomputable instance : ∀ a b : JsNum, Decidable (jsGt a b)
  | JsNum.num a, JsNum.num b => inferInstanceAs (Decidable (b < a))
  | JsNum.num _, JsNum.nan => Decidable.isFalse (fun h => h)
  | JsNum.nan, JsNum.num _ => Decidable.isFalse (fun h => h)
  | JsNum.nan, JsNum.nan => Decidable.isFalse (fun h => h)

/-- JS `>=`: any comparison involving `NaN` is false. -/
def jsGe : JsNum → JsNum → Prop
  | JsNum.num a, JsNum.num b => b ≤ a
  | _, _ => False

/-- Classifier state with prototype-aware term-frequency objects; the other
three fields hold plain numbers and a `Set` and need no refinement. -/
structure PModel : Type where
  wordCounts : Category → ProtoObj
  classCounts : Category → Nat
  vocab : List Term
  totalDocs : Nat

/-- The reset/constructor state. -/
def resetP : PModel :=
  { wordCounts := fun _ => [], classCounts := fun _ => 0, vocab := [], totalDocs := 0 }

/-- The token loop body of `train` (lines 71-74) with prototype semantics. -/
def tokStepP (lab : Category) (acc : PModel) (t : Term) : PModel :=
  { acc with
    vocab := setAdd acc.vocab t
    wordCounts :=
      Function.update acc.wordCounts lab (protoIncr (acc.wordCounts lab) t) }

/-- The document loop body of `train` (lines 65-75) with prototype
semantics. -/
def trainDocP (m : PModel) (d : Doc) : PModel :=
  let m1 : PModel :=
    { m with
      totalDocs := m.totalDocs + 1
      classCounts := Function.update m.classCounts d.label (m.classCounts d.label + 1) }
  (tokenize d.text).foldl (tokStepP d.label) m1

/-- `train` (lines 59-76) with prototype semantics. -/
def trainP (documents : List Doc) : PModel :=
  documents.foldl trainDocP resetP

/-- One token's contribution in `predict` (lines 88-91):
`tokenCount = wordCounts[category][token] || 0` (a prototype-chain read),
`classTotalWords = Object.values(wordCounts[category]).reduce(...)`,
then `Math.log((tokenCount + 1) / (classTotalWords + vocabSize))`; a truthy
non-number read or a string total makes the whole expression `NaN`. -/
noncomputable def termScore (wc : ProtoObj) (vlen : Nat) (t : Term) : JsNum :=
  match protoRead wc t, valuesSumP wc with
  | some ReadVal.tobj, _ => JsNum.nan
  | _, JsVal.objStr => JsNum.nan
  | some (ReadVal.num n), JsVal.num S =>
    JsNum.num (jsLog (jsDiv ((n : ℝ) + 1) ((S : ℝ) + (vlen : ℝ))))
  | none, JsVal.num S =>
    JsNum.num (jsLog (jsDiv ((0 : ℝ) + 1) ((S : ℝ) + (vlen : ℝ))))

/-- The score loop of `predict` (lines 86-92) with prototype semantics. -/
noncomputable def scoreP (m : PModel) (tokens : List Term) (c : Category) : JsNum :=
  tokens.foldl
    (fun acc t => jsAdd acc (termScore (m.wordCounts c) m.vocab.length t))
    (JsNum.num (jsLog (jsDiv (jsOrD (m.classCounts c) 0.1) (jsOrD m.totalDocs 1))))

/-- `predict` (lines 78-100) with prototype semantics: the same unrolled
selection loop, with `-Infinity` as `JsNum.num ⊥` and JS `>` false on
`NaN`. -/
noncomputable def predictP (m : PModel) (text : List Char) :
    Category × (Category → JsNum) :=
  let tokens := tokenize text
  let s : Category → JsNum := scoreP m tokens
  let b1 : Category × JsNum :=
    if jsGt (s Category.Positive) (JsNum.num ⊥) then
      (Category.Positive, s Category.Positive)
    else (Category.Neutral, JsNum.num ⊥)
  let b2 : Category × JsNum :=
    if jsGt (s Category.Negative) b1.2 then (Category.Negative, s Category.Negative)
    else b1
  let b3 : Category × JsNum :=
    if jsGt (s Category.Neutral) b2.2 then (Category.Neutral, s Category.Neutral)
    else b2
  (b3.1, s)

/-- Embed a prototype-free term-frequency map as own numeric properties. -/
def mapNum (l : List (Term × Nat)) : ProtoObj :=
  l.map (fun p => (p.1, JsVal.num p.2))

/-- A text none of whose tokens is a prototype-chain key. -/
def cleanText (text : List Char) : Prop :=
  ∀ t ∈ tokenize text, protoKeyB t = false

/-- A corpus none of whose texts contains a prototype-chain token. -/
def cleanCorpus (docs : List Doc) : Prop :=
  ∀ d ∈ docs, cleanText d.text

instance decCleanText (text : List Char) : Decidable (cleanText text) :=
  inferInstanceAs (Decidable (∀ t ∈ tokenize text, protoKeyB t = false))

instance decCleanCorpus (docs : List Doc) : Decidable (cleanCorpus docs) :=
  inferInstanceAs (Decidable (∀ d ∈ docs, cleanText d.text))

/-! ## Raw JS-level model, for documents whose label may be invalid

`train` uses `doc.label` as a raw property key; `predict` only ever reads the
three fixed keys.  To settle claim C3 the state is re-embedded with string
keys: `classCounts` starts with the three categories and may acquire extra
keys (JS `undefined++` and `inherited_object++` both store `NaN`, modelled as
`none`, except through the `"__proto__"` setter, which stores nothing), while
`wordCounts` keeps exactly its three initial keys.  For a label outside those
keys, `this.wordCounts[label]` is `undefined` — and reading a property of it
throws a `TypeError` — unless the label is one of the `Object.prototype`
property names, which resolve to inherited truthy objects; executions that
then write through such an object are marked `TrainErr.outsideModel`: their
JS behaviour (silent writes onto shared built-ins — a label of `"__proto__"`
even mutates `Object.prototype`, changing later predictions — or strict-mode
`TypeError`s on tokens naming non-writable built-in properties) is beyond
this embedding, and no theorem below depends on that branch. -/

/-- The JS name of a category, as used for property keys. -/
def Category.name : Category → String
  | Category.Positive => "Positive"
  | Category.Negative => "Negative"
  | Category.Neutral => "Neutral"

/-- The three property keys `predict` consults. -/
def categoryNames : List String := ["Positive", "Negative", "Neutral"]

/-- The property names of `Object.prototype` (a label equal to one of these
resolves to an inherited truthy object instead of `undefined`). -/
def protoPropNames : List String :=
  ["constructor", "toString", "toLocaleString", "valueOf", "hasOwnProperty",
   "isPrototypeOf", "propertyIsEnumerable", "__proto__", "__defineGetter__",
   "__defineSetter__", "__lookupGetter__", "__lookupSetter__"]

/-- A document as `train` actually receives it: the label is an arbitrary
string. -/
structure RawDoc : Type where
  text : List Char
  label : String
deriving DecidableEq

/-- A JS number that is a count or `NaN` (`none`). -/
abbrev JsCount := Option Nat

/-- Classifier state with raw string keys. -/
structure JSModel : Type where
  wordCounts : List (String × ProtoObj)
  classCounts : List (String × JsCount)
  vocab : List Term
  totalDocs : Nat
deriving DecidableEq

/-- The reset state of `train` at the JS level: the three fixed keys. -/
def resetJS : JSModel :=
  { wordCounts := [("Positive", []), ("Negative", []), ("Neutral", [])]
    classCounts := [("Positive", some 0), ("Negative", some 0), ("Neutral", some 0)]
    vocab := []
    totalDocs := 0 }

/-- JS `this.classCounts[category]++`: an existing numeric entry is bumped and
an existing `NaN` entry stays `NaN`.  On a missing key the read falls through
the prototype chain — `undefined` and inherited truthy objects alike give
`NaN` under `++` — and the write stores that `NaN` as an own property, except
for the key `"__proto__"`, whose inherited setter discards the non-object
value, storing nothing. -/
def ccIncr (l : List (String × JsCount)) (k : String) : List (String × JsCount) :=
  match l with
  | [] => if k = "__proto__" then [] else [(k, none)]
  | (q, v) :: rest =>
    if q = k then (q, v.map (· + 1)) :: rest else (q, v) :: ccIncr rest k

/-- Replace the value stored under an (existing) key. -/
def assocSet (l : List (String × ProtoObj)) (k : String)
    (w : ProtoObj) : List (String × ProtoObj) :=
  match l with
  | [] => []
  | (q, v) :: rest =>
    if q = k then (q, w) :: rest else (q, v) :: assocSet rest k w

/-- How a `train` run can fail to stay inside the model: a genuine JS
`TypeError` (property write on `undefined`), or an execution that writes
through an inherited `Object.prototype` object (see the section header). -/
inductive TrainErr : Type where
  | typeError : TrainErr
  | outsideModel : TrainErr
deriving DecidableEq, Repr

/-- The `train` token loop at the JS level.  Per token the code first runs
`this.vocab.add(token)` and then accesses `this.wordCounts[category][token]`:
an own key gives the prototype-aware increment; a label naming an
`Object.prototype` property resolves to an inherited object (no `TypeError`,
but the writes leave the model); any other label gives `undefined`, whose
property access throws a `TypeError`. -/
def tokStepJS (lab : String) (acc : JSModel) (t : Term) : Except TrainErr JSModel :=
  let acc1 : JSModel := { acc with vocab := setAdd acc.vocab t }
  match List.lookup lab acc1.wordCounts with
  | none =>
    if lab ∈ protoPropNames then Except.error TrainErr.outsideModel
    else Except.error TrainErr.typeError
  | some wc =>
    Except.ok { acc1 with wordCounts := assocSet acc1.wordCounts lab (protoIncr wc t) }

/-- The `train` document loop body at the JS level: bump `totalDocs` and the
label's class count (possibly storing `NaN` under an invalid label, or
nothing under `"__proto__"`), then run the token loop, which can throw. -/
def trainDocJS (m : JSModel) (d : RawDoc) : Except TrainErr JSModel :=
  let m1 : JSModel :=
    { m with totalDocs := m.totalDocs + 1, classCounts := ccIncr m.classCounts d.label }
  (tokenize d.text).foldlM (tokStepJS d.label) m1

/-- `train` at the JS level: reset, then fold the document loop, propagating a
thrown `TypeError` (or an exit from the modelled fragment). -/
def trainJS (documents : List RawDoc) : Except TrainErr JSModel :=
  documents.foldlM trainDocJS resetJS

/-- JS `(this.classCounts[category] || 0.1)` when the property may be missing
(`undefined`) or `NaN`: both are falsy. -/
def jsOrOpt (v : Option JsCount) (d : ℝ) : ℝ :=
  match v with
  | some (some n) => if n = 0 then d else (n : ℝ)
  | some none => d
  | none => d

/-- `this.wordCounts[category]` for one of the three fixed keys. -/
def wcOf (m : JSModel) (c : Category) : ProtoObj :=
  (List.lookup c.name m.wordCounts).getD []

/-- The `predict` score loop at the JS level, with prototype-aware reads. -/
noncomputable def scoreJS (m : JSModel) (tokens : List Term) (c : Category) : JsNum :=
  tokens.foldl
    (fun acc t => jsAdd acc (termScore (wcOf m c) m.vocab.length t))
    (JsNum.num (jsLog (jsDiv (jsOrOpt (List.lookup c.name m.classCounts) 0.1)
      (jsOrD m.totalDocs 1))))

/-- `predict` at the JS level (same unrolled selection loop). -/
noncomputable def predictJS (m : JSModel) (text : List Char) :
    Category × (Category → JsNum) :=
  let tokens := tokenize text
  let s : Category → JsNum := scoreJS m tokens
  let b1 : Category × JsNum :=
    if jsGt (s Category.Positive) (JsNum.num ⊥) then
      (Category.Positive, s Category.Positive)
    else (Category.Neutral, JsNum.num ⊥)
  let b2 : Category × JsNum :=
    if jsGt (s Category.Negative) b1.2 then (Category.Negative, s Category.Negative)
    else b1
  let b3 : Category × JsNum :=
    if jsGt (s Category.Neutral) b2.2 then (Category.Neutral, s Category.Neutral)
    else b2
  (b3.1, s)

/-- Drop from `classCounts` every entry whose key is not one of the three
categories (the statistics the spec says are never consulted). -/
def restrictJS (m : JSModel) : JSModel :=
  { m with classCounts := m.classCounts.filter (fun p => categoryNames.contains p.1) }

/-- Two classifier states are identical as model states in the sense of §3 of
the spec: same category document counts, same total document count, the same
term-frequency mapping for every category (same entries and, for the
denominators `predict` computes, the same total term count), and the same
vocabulary (same members and the same size).  Insertion order inside the JS
objects and the JS `Set` is the only thing allowed to differ. -/
def stateIdentical (m₁ m₂ : Model) : Prop :=
  m₁.classCounts = m₂.classCounts ∧ m₁.totalDocs = m₂.totalDocs ∧
    (∀ c t, lookupD (m₁.wordCounts c) t = lookupD (m₂.wordCounts c) t) ∧
    (∀ c t, t ∈ keys (m₁.wordCounts c) ↔ t ∈ keys (m₂.wordCounts c)) ∧
    (∀ c, valuesSum (m₁.wordCounts c) = valuesSum (m₂.wordCounts c)) ∧
    (∀ t, t ∈ m₁.vocab ↔ t ∈ m₂.vocab) ∧ m₁.vocab.length = m₂.vocab.length

/-! ## Tokenizer lemmas -/

/-- Joint characterisation of the two whitespace splitters: in field-start
mode both produce the same first field, and after discarding empty fields the
remaining fields agree; in run-continuation mode the nonempty fields agree. -/
theorem splitWs_splitEvery (l : List Char) :
    (∃ f fs es, splitWs false l = f :: fs ∧ splitEvery isWsChar l = f :: es ∧
        fs.filter (fun w => !w.isEmpty) = es.filter (fun w => !w.isEmpty)) ∧
      (splitWs true l).filter (fun w => !w.isEmpty) =
        (splitEvery isWsChar l).filter (fun w => !w.isEmpty) := by
  induction l with
  | nil => exact ⟨⟨[], [], [], rfl, rfl, rfl⟩, rfl⟩
  | cons c cs ih =>
    obtain ⟨⟨f, fs, es, h1, h2, h3⟩, h4⟩ := ih
    by_cases hc : isWsChar c = true
    · refine ⟨⟨[], splitWs true cs, splitEvery isWsChar cs, ?_, ?_, ?_⟩, ?_⟩
      · simp [splitWs, hc]
      · simp [splitEvery, hc]
      · simpa using h4
      · simp only [splitWs, splitEvery, hc, if_true]
        rw [List.filter_cons]
        simpa using h4
    · have hc' : isWsChar c = false := by simpa using hc
      refine ⟨⟨c :: f, fs, es, ?_, ?_, h3⟩, ?_⟩
      · simp [splitWs, hc', h1, consHead]
      · simp [splitEvery, hc', h2, consHead]
      · simp only [splitWs, splitEvery, hc', Bool.false_eq_true, if_false, h1, h2, consHead]
        rw [List.filter_cons, List.filter_cons]
        simpa using h3

/-- Filtering with a stronger predicate absorbs filtering with a weaker one. -/
theorem filter_of_imp {α : Type} {p q : α → Bool}
    (h : ∀ a, p a = true → q a = true) (l : List α) :
    (l.filter q).filter p = l.filter p := by
  induction l with
  | nil => rfl
  | cons a l ih =>
    by_cases hq : q a = true
    · by_cases hp : p a = true
      · simp [List.filter_cons, hp, hq, ih]
      · simp [List.filter_cons, hp, hq, ih]
    · have hp : p a = false := by
        cases hpa : p a with
        | false => rfl
        | true => exact absurd (h a hpa) hq
      simp [List.filter_cons, hp, hq, ih]

/-- C2, counterexample: the claim says `tokenize` removes every character
that is not a letter, digit, or whitespace, but the regex `/[^\w\s]/g` keeps
the underscore (`\w` is letter, digit or underscore).  On the input `"a__b"`
the code keeps the token `"a__b"`, while the claimed pipeline strips the
underscores, leaving `"ab"`, which is then discarded as too short. -/
theorem claim_C2_counterexample :
    tokenize "a__b".toList ≠ specTokenize "a__b".toList ∧
      tokenize "a__b".toList = ["a__b".toList] ∧
      specTokenize "a__b".toList = [] := by decide

/-- C2, amended: for every input string (empty input returning `[]`),
`tokenize` returns exactly the sequence obtained by lower-casing the text,
removing every character that is not a word character (letter, digit or
underscore) and not whitespace, splitting on runs of whitespace, and
discarding tokens of length at most 2, in left-to-right order with
duplicates preserved. -/
theorem claim_C2 (text : List Char) : tokenize text = specTokenizeW text := by
  by_cases h : text = []
  · subst h; rfl
  · have himp : ∀ w : List Char, decide (w.length > 2) = true → (!w.isEmpty) = true := by
      intro w hw
      have h2 : 2 < w.length := of_decide_eq_true hw
      cases w with
      | nil => simp at h2
      | cons a l => simp
    have hpred : (fun c => isWordChar c || isWsChar c) =
        (fun c : Char => isLetterB c || isDigitB c || (c.toNat == 95) || isWsChar c) := by
      funext c; simp [isWordChar, Bool.or_assoc]
    unfold tokenize specTokenizeW
    rw [if_neg h, hpred]
    obtain ⟨⟨f, fs, es, h1, h2, h3⟩, -⟩ := splitWs_splitEvery
      ((text.map jsToLower).filter
        (fun c : Char => isLetterB c || isDigitB c || (c.toNat == 95) || isWsChar c))
    rw [h1, h2]
    have e1 : (f :: fs).filter (fun w => !w.isEmpty) =
        (f :: es).filter (fun w => !w.isEmpty) := by
      rw [List.filter_cons, List.filter_cons, h3]
    calc (f :: fs).filter (fun w => w.length > 2)
        = ((f :: fs).filter (fun w => !w.isEmpty)).filter (fun w => w.length > 2) :=
          (filter_of_imp himp _).symm
      _ = ((f :: es).filter (fun w => !w.isEmpty)).filter (fun w => w.length > 2) := by
          rw [e1]

/-! ## Association-list and set lemmas -/

theorem lookupD_assocIncr (l : List (Term × Nat)) (t u : Term) :
    lookupD (assocIncr l t) u = lookupD l u + (if t = u then 1 else 0) := by
  induction l with
  | nil =>
    by_cases h : t = u
    · subst h; simp [assocIncr, lookupD]
    · simp [assocIncr, lookupD, h]
  | cons kv rest ih =>
    obtain ⟨k, v⟩ := kv
    by_cases hk : k = t
    · subst hk
      by_cases hu : k = u
      · subst hu; simp [assocIncr, lookupD]
      · simp [assocIncr, lookupD, hu, fun h : k = u => hu h]
    · by_cases hu : k = u
      · subst hu
        have ht : ¬(t = k) := fun h => hk h.symm
        simp [assocIncr, lookupD, hk, ht]
      · simp [assocIncr, lookupD, hk, hu, ih]

theorem valuesSum_assocIncr (l : List (Term × Nat)) (t : Term) :
    valuesSum (assocIncr l t) = valuesSum l + 1 := by
  induction l with
  | nil => simp [assocIncr, valuesSum]
  | cons kv rest ih =>
    obtain ⟨k, v⟩ := kv
    by_cases hk : k = t
    · simp [assocIncr, hk, valuesSum]; omega
    · simp [assocIncr, hk, valuesSum] at ih ⊢; omega

theorem mem_keys_assocIncr (l : List (Term × Nat)) (t u : Term) :
    u ∈ keys (assocIncr l t) ↔ u ∈ keys l ∨ u = t := by
  induction l with
  | nil => simp [assocIncr, keys]
  | cons kv rest ih =>
    obtain ⟨k, v⟩ := kv
    by_cases hk : k = t
    · subst hk; simp [assocIncr, keys]; tauto
    · simp [assocIncr, hk, keys] at ih ⊢
      tauto

theorem nodup_keys_assocIncr (l : List (Term × Nat)) (t : Term)
    (h : (keys l).Nodup) : (keys (assocIncr l t)).Nodup := by
  induction l with
  | nil => simp [assocIncr, keys]
  | cons kv rest ih =>
    obtain ⟨k, v⟩ := kv
    simp [keys] at h
    by_cases hk : k = t
    · subst hk; simpa [assocIncr, keys] using h
    · have h2 := ih h.2
      have h3 : k ∉ keys (assocIncr rest t) := by
        rw [mem_keys_assocIncr]
        rintro (hmem | rfl)
        · exact absurd (by simpa [keys] using hmem) (by simpa [keys] using h.1)
        · exact hk rfl
      simp [assocIncr, hk, keys] at h3 ⊢
      exact ⟨h3, h2⟩

theorem mem_setAdd (v : List Term) (t u : Term) :
    u ∈ setAdd v t ↔ u ∈ v ∨ u = t := by
  by_cases h : t ∈ v
  · simp only [setAdd, h, if_true]
    exact ⟨Or.inl, fun hu => hu.elim id (fun e => e ▸ h)⟩
  · simp [setAdd, h]

theorem nodup_setAdd (v : List Term) (t : Term) (h : v.Nodup) :
    (setAdd v t).Nodup := by
  by_cases ht : t ∈ v
  · simpa [setAdd, ht] using h
  · simp only [setAdd, ht, if_false]
    rw [List.nodup_append]
    exact ⟨h, List.nodup_singleton t, by simpa using ht⟩

theorem foldl_setAdd_mem (l : List Term) :
    ∀ v u, u ∈ l.foldl setAdd v ↔ u ∈ v ∨ u ∈ l := by
  induction l with
  | nil => simp
  | cons t ts ih =>
    intro v u
    rw [List.foldl_cons, ih, mem_setAdd]
    simp
    tauto

theorem foldl_setAdd_nodup (l : List Term) :
    ∀ v, v.Nodup → (l.foldl setAdd v).Nodup := by
  induction l with
  | nil => exact fun v h => h
  | cons t ts ih => exact fun v h => ih _ (nodup_setAdd v t h)

/-! ## Token-loop and train characterisation -/

theorem foldlTok_wordCounts_ne (lab c : Category) (hne : c ≠ lab) (l : List Term) :
    ∀ m : Model, ((l.foldl (tokStep lab) m).wordCounts c) = m.wordCounts c := by
  induction l with
  | nil => intro m; rfl
  | cons t ts ih =>
    intro m
    rw [List.foldl_cons, ih]
    simp [tokStep, Function.update_apply, hne]

theorem foldlTok_lookupD (lab : Category) (u : Term) (l : List Term) :
    ∀ m, lookupD ((l.foldl (tokStep lab) m).wordCounts lab) u =
      lookupD (m.wordCounts lab) u + l.count u := by
  induction l with
  | nil => intro m; simp
  | cons t ts ih =>
    intro m
    rw [List.foldl_cons, ih]
    simp only [tokStep, Function.update_same]
    rw [lookupD_assocIncr, List.count_cons]
    by_cases h : t = u
    · subst h; simp; omega
    · simp [h, fun e : u = t => h e.symm]

theorem foldlTok_valuesSum (lab : Category) (l : List Term) :
    ∀ m, valuesSum ((l.foldl (tokStep lab) m).wordCounts lab) =
      valuesSum (m.wordCounts lab) + l.length := by
  induction l with
  | nil => intro m; simp
  | cons t ts ih =>
    intro m
    rw [List.foldl_cons, ih]
    simp only [tokStep, Function.update_same]
    rw [valuesSum_assocIncr, List.length_cons]
    omega

theorem foldlTok_vocab (lab : Category) (l : List Term) :
    ∀ m, (l.foldl (tokStep lab) m).vocab = l.foldl setAdd m.vocab := by
  induction l with
  | nil => intro m; rfl
  | cons t ts ih => intro m; rw [List.foldl_cons, ih]; rfl

theorem foldlTok_classCounts (lab : Category) (l : List Term) :
    ∀ m, (l.foldl (tokStep lab) m).classCounts = m.classCounts := by
  induction l with
  | nil => intro m; rfl
  | cons t ts ih => intro m; rw [List.foldl_cons, ih]; rfl

theorem foldlTok_totalDocs (lab : Category) (l : List Term) :
    ∀ m, (l.foldl (tokStep lab) m).totalDocs = m.totalDocs := by
  induction l with
  | nil => intro m; rfl
  | cons t ts ih => intro m; rw [List.foldl_cons, ih]; rfl

theorem foldlTok_mem_keys (lab : Category) (u : Term) (l : List Term) :
    ∀ m, u ∈ keys ((l.foldl (tokStep lab) m).wordCounts lab) ↔
      u ∈ keys (m.wordCounts lab) ∨ u ∈ l := by
  induction l with
  | nil => intro m; simp
  | cons t ts ih =>
    intro m
    rw [List.foldl_cons, ih]
    simp only [tokStep, Function.update_same]
    rw [mem_keys_assocIncr]
    simp
    tauto

theorem foldlTok_nodup_keys (lab : Category) (l : List Term) :
    ∀ m, (∀ c, (keys (m.wordCounts c)).Nodup) →
      ∀ c, (keys ((l.foldl (tokStep lab) m).wordCounts c)).Nodup := by
  induction l with
  | nil => exact fun m h => h
  | cons t ts ih =>
    intro m h
    refine ih _ ?_
    intro c
    by_cases hc : c = lab
    · subst hc
      simp only [tokStep, Function.update_same]
      exact nodup_keys_assocIncr _ _ (h c)
    · simp only [tokStep, Function.update_apply, if_neg hc]
      exact h c

theorem trainDoc_lookupD (m : Model) (d : Doc) (c : Category) (u : Term) :
    lookupD ((trainDoc m d).wordCounts c) u =
      lookupD (m.wordCounts c) u +
        (if d.label = c then (tokenize d.text).count u else 0) := by
  unfold trainDoc
  by_cases h : c = d.label
  · subst h
    rw [foldlTok_lookupD]
    simp
  · rw [foldlTok_wordCounts_ne _ _ h]
    have hne : d.label ≠ c := fun e => h e.symm
    simp [hne]

theorem trainDoc_valuesSum (m : Model) (d : Doc) (c : Category) :
    valuesSum ((trainDoc m d).wordCounts c) =
      valuesSum (m.wordCounts c) +
        (if d.label = c then (tokenize d.text).length else 0) := by
  unfold trainDoc
  by_cases h : c = d.label
  · subst h
    rw [foldlTok_valuesSum]
    simp
  · rw [foldlTok_wordCounts_ne _ _ h]
    have hne : d.label ≠ c := fun e => h e.symm
    simp [hne]

theorem trainDoc_mem_keys (m : Model) (d : Doc) (c : Category) (u : Term) :
    u ∈ keys ((trainDoc m d).wordCounts c) ↔
      u ∈ keys (m.wordCounts c) ∨ (d.label = c ∧ u ∈ tokenize d.text) := by
  unfold trainDoc
  by_cases h : c = d.label
  · subst h
    rw [foldlTok_mem_keys]
    simp
  · rw [foldlTok_wordCounts_ne _ _ h]
    have hne : d.label ≠ c := fun e => h e.symm
    simp [hne]

theorem trainDoc_classCounts (m : Model) (d : Doc) (c : Category) :
    (trainDoc m d).classCounts c =
      m.classCounts c + (if d.label = c then 1 else 0) := by
  unfold trainDoc
  rw [foldlTok_classCounts]
  by_cases h : d.label = c
  · subst h; simp
  · have hne : c ≠ d.label := fun e => h e.symm
    simp [Function.update_apply, h, hne]

theorem trainDoc_totalDocs (m : Model) (d : Doc) :
    (trainDoc m d).totalDocs = m.totalDocs + 1 := by
  unfold trainDoc
  rw [foldlTok_totalDocs]

theorem trainDoc_vocab (m : Model) (d : Doc) :
    (trainDoc m d).vocab = (tokenize d.text).foldl setAdd m.vocab := by
  unfold trainDoc
  rw [foldlTok_vocab]

theorem train_aux_totalDocs : ∀ (docs : List Doc) (m : Model),
    (docs.foldl trainDoc m).totalDocs = m.totalDocs + docs.length := by
  intro docs
  induction docs with
  | nil => simp
  | cons d ds ih =>
    intro m
    rw [List.foldl_cons, ih, trainDoc_totalDocs, List.length_cons]
    omega

theorem train_aux_classCounts : ∀ (docs : List Doc) (m : Model) (c : Category),
    (docs.foldl trainDoc m).classCounts c =
      m.classCounts c + docs.countP (fun d => decide (d.label = c)) := by
  intro docs
  induction docs with
  | nil => simp
  | cons d ds ih =>
    intro m c
    rw [List.foldl_cons, ih, trainDoc_classCounts, List.countP_cons]
    by_cases h : d.label = c
    · simp [h]; omega
    · simp [h]

theorem train_aux_lookupD : ∀ (docs : List Doc) (m : Model) (c : Category) (u : Term),
    lookupD ((docs.foldl trainDoc m).wordCounts c) u =
      lookupD (m.wordCounts c) u + tfSem docs c u := by
  intro docs
  induction docs with
  | nil => simp [tfSem]
  | cons d ds ih =>
    intro m c u
    rw [List.foldl_cons, ih, trainDoc_lookupD]
    simp only [tfSem, List.map_cons, List.sum_cons]
    rw [add_assoc]

theorem train_aux_valuesSum : ∀ (docs : List Doc) (m : Model) (c : Category),
    valuesSum ((docs.foldl trainDoc m).wordCounts c) =
      valuesSum (m.wordCounts c) + ttSem docs c := by
  intro docs
  induction docs with
  | nil => simp [ttSem]
  | cons d ds ih =>
    intro m c
    rw [List.foldl_cons, ih, trainDoc_valuesSum]
    simp only [ttSem, List.map_cons, List.sum_cons]
    rw [add_assoc]

theorem train_aux_vocab : ∀ (docs : List Doc) (m : Model),
    (docs.foldl trainDoc m).vocab =
      docs.foldl (fun v d => (tokenize d.text).foldl setAdd v) m.vocab := by
  intro docs
  induction docs with
  | nil => intro m; rfl
  | cons d ds ih =>
    intro m
    rw [List.foldl_cons, ih, List.foldl_cons, trainDoc_vocab]

theorem train_aux_mem_keys : ∀ (docs : List Doc) (m : Model) (c : Category) (u : Term),
    u ∈ keys ((docs.foldl trainDoc m).wordCounts c) ↔
      u ∈ keys (m.wordCounts c) ∨ ∃ d ∈ docs, d.label = c ∧ u ∈ tokenize d.text := by
  intro docs
  induction docs with
  | nil => simp
  | cons d ds ih =>
    intro m c u
    rw [List.foldl_cons, ih, trainDoc_mem_keys]
    simp
    tauto

theorem train_totalDocs (docs : List Doc) : (train docs).totalDocs = docs.length := by
  rw [train, train_aux_totalDocs]; simp [resetModel]

theorem train_classCounts (docs : List Doc) (c : Category) :
    (train docs).classCounts c = docs.countP (fun d => decide (d.label = c)) := by
  rw [train, train_aux_classCounts]; simp [resetModel]

theorem train_lookupD (docs : List Doc) (c : Category) (u : Term) :
    lookupD ((train docs).wordCounts c) u = tfSem docs c u := by
  rw [train, train_aux_lookupD]; simp [resetModel, lookupD]

theorem train_valuesSum (docs : List Doc) (c : Category) :
    valuesSum ((train docs).wordCounts c) = ttSem docs c := by
  rw [train, train_aux_valuesSum]; simp [resetModel, valuesSum]

theorem train_vocab (docs : List Doc) :
    (train docs).vocab = docs.foldl (fun v d => (tokenize d.text).foldl setAdd v) [] := by
  rw [train, train_aux_vocab]; rfl

theorem train_mem_keys (docs : List Doc) (c : Category) (u : Term) :
    u ∈ keys ((train docs).wordCounts c) ↔ ∃ d ∈ docs, d.label = c ∧ u ∈ tokenize d.text := by
  rw [train, train_aux_mem_keys]
  simp [keys, resetModel]

theorem foldl_vocabStep_mem (docs : List Doc) :
    ∀ (v : List Term) (u : Term),
      u ∈ docs.foldl (fun v d => (tokenize d.text).foldl setAdd v) v ↔
        u ∈ v ∨ ∃ d ∈ docs, u ∈ tokenize d.text := by
  induction docs with
  | nil => simp
  | cons d ds ih =>
    intro v u
    rw [List.foldl_cons, ih, foldl_setAdd_mem]
    simp
    tauto

theorem train_mem_vocab (docs : List Doc) (u : Term) :
    u ∈ (train docs).vocab ↔ ∃ d ∈ docs, u ∈ tokenize d.text := by
  rw [train_vocab, foldl_vocabStep_mem]
  simp

theorem train_nodup_vocab (docs : List Doc) : (train docs).vocab.Nodup := by
  rw [train_vocab]
  have : ∀ (v : List Term), v.Nodup →
      (docs.foldl (fun v d => (tokenize d.text).foldl setAdd v) v).Nodup := by
    induction docs with
    | nil => exact fun v h => h
    | cons d ds ih =>
      intro v h
      rw [List.foldl_cons]
      exact ih _ (foldl_setAdd_nodup _ _ h)
  exact this [] List.nodup_nil

theorem train_nodup_keys (docs : List Doc) (c : Category) :
    (keys ((train docs).wordCounts c)).Nodup := by
  rw [train]
  have : ∀ (m : Model), (∀ c, (keys (m.wordCounts c)).Nodup) →
      ∀ c, (keys ((docs.foldl trainDoc m).wordCounts c)).Nodup := by
    induction docs with
    | nil => exact fun m h => h
    | cons d ds ih =>
      intro m h
      rw [List.foldl_cons]
      refine ih _ ?_
      intro c2
      simp only [trainDoc]
      exact foldlTok_nodup_keys d.label (tokenize d.text)
        { m with
          totalDocs := m.totalDocs + 1
          classCounts := Function.update m.classCounts d.label (m.classCounts d.label + 1) }
        (fun c3 => h c3) c2
  refine this resetModel ?_ c
  intro c2
  simp [resetModel, keys]

theorem train_keys_sub_vocab (docs : List Doc) (c : Category) (u : Term)
    (h : u ∈ keys ((train docs).wordCounts c)) : u ∈ (train docs).vocab := by
  rw [train_mem_keys] at h
  rw [train_mem_vocab]
  obtain ⟨d, hd, -, hu⟩ := h
  exact ⟨d, hd, hu⟩

/-! ## Score lemmas -/

theorem jsLog_ne_bot (x : EReal) : jsLog x ≠ ⊥ := by
  unfold jsLog
  split
  · exact top_ne_bot
  · exact EReal.coe_ne_bot _

theorem sum_ne_bot (l : List EReal) (h : ∀ x ∈ l, x ≠ ⊥) : l.sum ≠ ⊥ := by
  induction l with
  | nil => simp
  | cons x xs ih =>
    rw [List.sum_cons]
    rw [Ne, EReal.add_eq_bot_iff]
    push_neg
    exact ⟨h x (by simp), ih (fun y hy => h y (by simp [hy]))⟩

theorem foldl_add_eq_sum (f : Term → EReal) (l : List Term) :
    ∀ init : EReal, l.foldl (fun acc t => acc + f t) init = init + (l.map f).sum := by
  induction l with
  | nil => simp
  | cons t ts ih =>
    intro init
    rw [List.foldl_cons, ih, List.map_cons, List.sum_cons, add_assoc]

theorem scoreOf_eq_sum (m : Model) (tokens : List Term) (c : Category) :
    scoreOf m tokens c =
      jsLog (jsDiv (jsOrD (m.classCounts c) 0.1) (jsOrD m.totalDocs 1)) +
        (tokens.map
          (fun t =>
            jsLog (jsDiv ((lookupD (m.wordCounts c) t : ℝ) + 1)
              ((valuesSum (m.wordCounts c) : ℝ) + (m.vocab.length : ℝ))))).sum := by
  unfold scoreOf
  rw [foldl_add_eq_sum]

theorem scoreOf_ne_bot (m : Model) (tokens : List Term) (c : Category) :
    scoreOf m tokens c ≠ ⊥ := by
  rw [scoreOf_eq_sum, Ne, EReal.add_eq_bot_iff]
  push_neg
  refine ⟨jsLog_ne_bot _, sum_ne_bot _ ?_⟩
  intro x hx
  rw [List.mem_map] at hx
  obtain ⟨t, -, rfl⟩ := hx
  exact jsLog_ne_bot _

theorem coe_list_sum (l : List ℝ) :
    ((l.sum : ℝ) : EReal) = (l.map (fun r : ℝ => (r : EReal))).sum := by
  induction l with
  | nil => simp
  | cons x xs ih => rw [List.sum_cons, List.map_cons, List.sum_cons, EReal.coe_add, ih]

theorem jsOrD_pos (n : Nat) (d : ℝ) (hd : 0 < d) : 0 < jsOrD n d := by
  unfold jsOrD
  split
  · exact hd
  · rename_i h
    exact_mod_cast Nat.pos_of_ne_zero h

theorem jsOrD_eq_max (n : Nat) (d : ℝ) (hd0 : 0 ≤ d) (hd1 : d ≤ 1) :
    jsOrD n d = max (n : ℝ) d := by
  unfold jsOrD
  split
  · rename_i h
    subst h
    rw [Nat.cast_zero, max_eq_right hd0]
  · rename_i h
    have h1 : (1 : ℝ) ≤ (n : ℝ) := by exact_mod_cast Nat.one_le_iff_ne_zero.mpr h
    rw [max_eq_left (le_trans hd1 h1)]

theorem scoreOf_top_of (m : Model) (tokens : List Term) (c : Category)
    (hv : ((valuesSum (m.wordCounts c) : ℝ) + (m.vocab.length : ℝ)) = 0)
    (ht : tokens ≠ []) : scoreOf m tokens c = ⊤ := by
  rw [scoreOf_eq_sum]
  cases tokens with
  | nil => exact absurd rfl ht
  | cons t ts =>
    rw [List.map_cons, List.sum_cons]
    have h1 : jsLog (jsDiv ((lookupD (m.wordCounts c) t : ℝ) + 1)
        ((valuesSum (m.wordCounts c) : ℝ) + (m.vocab.length : ℝ))) = ⊤ := by
      rw [jsDiv, if_pos hv, jsLog, if_pos rfl]
    rw [h1, EReal.top_add_of_ne_bot, EReal.add_top_of_ne_bot (jsLog_ne_bot _)]
    refine sum_ne_bot _ ?_
    intro x hx
    rw [List.mem_map] at hx
    obtain ⟨u, -, rfl⟩ := hx
    exact jsLog_ne_bot _

theorem jsLog_jsDiv_coe (a b : ℝ) (hb : b ≠ 0) :
    jsLog (jsDiv a b) = ((Real.log (a / b) : ℝ) : EReal) := by
  rw [jsDiv, if_neg hb, jsLog, if_neg (EReal.coe_ne_top _), EReal.toReal_coe]

theorem scoreOf_eq_realScore (m : Model) (tokens : List Term) (c : Category)
    (hden : ((valuesSum (m.wordCounts c) : ℝ) + (m.vocab.length : ℝ)) ≠ 0 ∨ tokens = []) :
    scoreOf m tokens c = ((realScore m tokens c : ℝ) : EReal) := by
  have hpr : jsOrD m.totalDocs 1 ≠ 0 := (jsOrD_pos _ _ one_pos).ne.symm
  rcases hden with hden | rfl
  · rw [scoreOf_eq_sum, realScore, EReal.coe_add, jsLog_jsDiv_coe _ _ hpr, coe_list_sum,
      List.map_map]
    congr 1
    congr 1
    apply List.map_congr_left
    intro t _
    rw [Function.comp_apply, jsLog_jsDiv_coe _ _ hden]
  · rw [scoreOf_eq_sum, realScore, EReal.coe_add, jsLog_jsDiv_coe _ _ hpr]
    simp

theorem predict_snd (m : Model) (text : List Char) :
    (predict m text).2 = scoreOf m (tokenize text) := rfl

theorem predict_fst_eq (m : Model) (text : List Char) :
    (predict m text).1 =
      (if scoreOf m (tokenize text) Category.Negative >
          scoreOf m (tokenize text) Category.Positive then
        (if scoreOf m (tokenize text) Category.Neutral >
            scoreOf m (tokenize text) Category.Negative then Category.Neutral
         else Category.Negative)
       else
        (if scoreOf m (tokenize text) Category.Neutral >
            scoreOf m (tokenize text) Category.Positive then Category.Neutral
         else Category.Positive)) := by
  have hP : (⊥ : EReal) < scoreOf m (tokenize text) Category.Positive :=
    bot_lt_iff_ne_bot.mpr (scoreOf_ne_bot m (tokenize text) Category.Positive)
  simp only [predict, gt_iff_lt]
  split_ifs <;>
    first
      | rfl
      | (exact absurd hP (by assumption))
      | (exact absurd (by assumption) (by assumption))

/-- C10: a freshly constructed classifier has exactly the state produced by
`fit` on the empty corpus, and `predict` behaves identically on the two. -/
theorem claim_C10 :
    train [] = emptyModel ∧
      ∀ text : List Char, predict (train []) text = predict emptyModel text :=
  ⟨rfl, fun _ => rfl⟩

/-- In the prototype-free fragment, the score of a category is
`log(max(classCount, 0.1) / max(totalDocs, 1))` plus, per token occurrence,
`log((termFreq + 1) / (classTotalWords + vocabSize))`. -/
theorem scoreOf_train_spec (docs : List Doc) (text : List Char) (c : Category) :
    (predict (train docs) text).2 c = specScore (train docs) (tokenize text) c := by
  rw [predict_snd, scoreOf_eq_sum, specScore,
    jsOrD_eq_max (train docs).totalDocs 1 zero_le_one le_rfl,
    jsOrD_eq_max ((train docs).classCounts c) 0.1 (by norm_num) (by norm_num),
    List.dedup_eq_self.mpr (train_nodup_vocab docs)]

/-- On a model with an empty vocabulary (and hence empty term-frequency
maps), every nonempty token list is scored `+Infinity`: the likelihood
denominator `classTotalWords + vocabSize` is `0`. -/
theorem scoreOf_train_top (docs : List Doc) (text : List Char) (c : Category)
    (hvoc : (train docs).vocab = []) (ht : tokenize text ≠ []) :
    scoreOf (train docs) (tokenize text) c = ⊤ := by
  have hwc : (train docs).wordCounts c = [] := by
    have hk : keys ((train docs).wordCounts c) = [] := by
      rw [List.eq_nil_iff_forall_not_mem]
      intro u hu
      have := train_keys_sub_vocab docs c u hu
      rw [hvoc] at this
      exact absurd this (List.not_mem_nil u)
    unfold keys at hk
    exact List.map_eq_nil_iff.mp hk
  refine scoreOf_top_of _ _ _ ?_ ht
  rw [hwc, hvoc]
  simp [valuesSum]

/-- C1, counterexample: after `fit([])`, the score `predict("anything")`
assigns to `Positive` is not a finite real — the likelihood denominator is
`0 + 0`, so the token contributes `log(1/0) = +Infinity` (the same holds for
all three categories), contradicting the claimed finiteness. -/
theorem claim_C1_counterexample :
    ¬ ∃ r : ℝ, (predict (train []) "anything".toList).2 Category.Positive = (r : EReal) := by
  rintro ⟨r, hr⟩
  rw [predict_snd, scoreOf_train_top [] "anything".toList Category.Positive rfl
    (by decide)] at hr
  exact EReal.coe_ne_top r hr.symm

/-- C1, amended: after `fit` on the empty corpus, `predict("anything")` does
return the label `Positive` (all three scores tie and Positive is evaluated
first), but the three scores are all `+Infinity` rather than finite: the
prior term uses the `0.1`/`1` floors and is finite, while the sole token
contributes `log((0 + 1) / (0 + 0)) = +Infinity` to every category. -/
theorem claim_C1 :
    (predict (train []) "anything".toList).1 = Category.Positive ∧
      ∀ c, (predict (train []) "anything".toList).2 c = ⊤ := by
  have hscore : ∀ c, scoreOf (train []) (tokenize "anything".toList) c = ⊤ :=
    fun c => scoreOf_train_top [] "anything".toList c rfl (by decide)
  constructor
  · rw [predict_fst_eq, hscore Category.Positive, hscore Category.Negative,
      hscore Category.Neutral]
    simp
  · intro c
    rw [predict_snd, hscore c]

/-- In the prototype-free fragment, `predict` returns one of the three
categories; no score is `-Infinity`, and a score is `+Infinity` exactly when
the fitted vocabulary is empty while the input has at least one token. -/
theorem predict_train_safety (docs : List Doc) (text : List Char) (c : Category) :
    ((predict (train docs) text).1 = Category.Positive ∨
      (predict (train docs) text).1 = Category.Negative ∨
      (predict (train docs) text).1 = Category.Neutral) ∧
      (predict (train docs) text).2 c ≠ ⊥ ∧
      ((predict (train docs) text).2 c = ⊤ ↔
        ((train docs).vocab = [] ∧ tokenize text ≠ [])) := by
  refine ⟨?_, ?_, ?_⟩
  · cases h : (predict (train docs) text).1
    · exact Or.inl rfl
    · exact Or.inr (Or.inl rfl)
    · exact Or.inr (Or.inr rfl)
  · rw [predict_snd]
    exact scoreOf_ne_bot _ _ _
  · rw [predict_snd]
    constructor
    · intro htop
      by_cases hvoc : (train docs).vocab = []
      · refine ⟨hvoc, ?_⟩
        intro hnil
        rw [scoreOf_eq_realScore _ _ _ (Or.inr hnil)] at htop
        exact EReal.coe_ne_top _ htop
      · exfalso
        have hlen : (1 : ℝ) ≤ ((train docs).vocab.length : ℝ) := by
          have := List.length_pos.mpr hvoc
          exact_mod_cast this
        have hden : ((valuesSum ((train docs).wordCounts c) : ℝ) +
            ((train docs).vocab.length : ℝ)) ≠ 0 := by
          have h0 : (0 : ℝ) ≤ (valuesSum ((train docs).wordCounts c) : ℝ) :=
            Nat.cast_nonneg _
          nlinarith
        rw [scoreOf_eq_realScore _ _ _ (Or.inl hden)] at htop
        exact EReal.coe_ne_top _ htop
    · rintro ⟨hvoc, ht⟩
      exact scoreOf_train_top docs text c hvoc ht

theorem scoreOf_congr (m1 m2 : Model)
    (hcc : m1.classCounts = m2.classCounts) (htd : m1.totalDocs = m2.totalDocs)
    (hlk : ∀ c t, lookupD (m1.wordCounts c) t = lookupD (m2.wordCounts c) t)
    (hvs : ∀ c, valuesSum (m1.wordCounts c) = valuesSum (m2.wordCounts c))
    (hvl : m1.vocab.length = m2.vocab.length) (tokens : List Term) (c : Category) :
    scoreOf m1 tokens c = scoreOf m2 tokens c := by
  rw [scoreOf_eq_sum, scoreOf_eq_sum, hcc, htd, hvl, hvs c]
  congr 1
  congr 1
  apply List.map_congr_left
  intro t _
  rw [hlk c t]

theorem predict_congr (m1 m2 : Model)
    (hs : ∀ tokens c, scoreOf m1 tokens c = scoreOf m2 tokens c) (text : List Char) :
    predict m1 text = predict m2 text := by
  have h2 : (predict m1 text).2 = (predict m2 text).2 := by
    rw [predict_snd, predict_snd]
    funext c
    exact hs _ c
  have h1 : (predict m1 text).1 = (predict m2 text).1 := by
    rw [predict_fst_eq, predict_fst_eq, hs (tokenize text) Category.Positive,
      hs (tokenize text) Category.Negative, hs (tokenize text) Category.Neutral]
  exact Prod.ext h1 h2

/-- In the prototype-free fragment: class counts sum to the total, stored
counts are naturals, and the vocabulary is the union of the key sets. -/
theorem train_invariants (docs : List Doc) :
    ((train docs).classCounts Category.Positive +
        (train docs).classCounts Category.Negative +
        (train docs).classCounts Category.Neutral = (train docs).totalDocs) ∧
      (∀ c, ∀ p ∈ (train docs).wordCounts c, 0 ≤ p.2) ∧
      (∀ t, t ∈ (train docs).vocab ↔
        (t ∈ keys ((train docs).wordCounts Category.Positive) ∨
          t ∈ keys ((train docs).wordCounts Category.Negative) ∨
          t ∈ keys ((train docs).wordCounts Category.Neutral))) := by
  refine ⟨?_, fun c p _ => Nat.zero_le _, ?_⟩
  · rw [train_totalDocs, train_classCounts, train_classCounts, train_classCounts]
    induction docs with
    | nil => rfl
    | cons d ds ih =>
      rw [List.countP_cons, List.countP_cons, List.countP_cons, List.length_cons]
      cases d.label <;> simp <;> omega
  · intro t
    rw [train_mem_vocab, train_mem_keys, train_mem_keys, train_mem_keys]
    constructor
    · rintro ⟨d, hd, ht⟩
      cases hl : d.label
      · exact Or.inl ⟨d, hd, hl, ht⟩
      · exact Or.inr (Or.inl ⟨d, hd, hl, ht⟩)
      · exact Or.inr (Or.inr ⟨d, hd, hl, ht⟩)
    · rintro (⟨d, hd, -, ht⟩ | ⟨d, hd, -, ht⟩ | ⟨d, hd, -, ht⟩) <;> exact ⟨d, hd, ht⟩

/-- C8: fitting on any permutation of the corpus produces an identical model
state (identical category counts, total count, term-frequency mappings and
vocabulary — insertion order aside, which the JS maps do not expose to
`predict`), and all subsequent predictions are identical. -/
theorem claim_C8 (docs1 docs2 : List Doc) (h : docs1.Perm docs2) :
    stateIdentical (train docs1) (train docs2) ∧
      ∀ text : List Char, predict (train docs1) text = predict (train docs2) text := by
  have hcc : (train docs1).classCounts = (train docs2).classCounts := by
    funext c
    rw [train_classCounts, train_classCounts, h.countP_eq]
  have htd : (train docs1).totalDocs = (train docs2).totalDocs := by
    rw [train_totalDocs, train_totalDocs, h.length_eq]
  have hlk : ∀ c t, lookupD ((train docs1).wordCounts c) t =
      lookupD ((train docs2).wordCounts c) t := by
    intro c t
    rw [train_lookupD, train_lookupD]
    exact (h.map _).sum_eq
  have hvs : ∀ c, valuesSum ((train docs1).wordCounts c) =
      valuesSum ((train docs2).wordCounts c) := by
    intro c
    rw [train_valuesSum, train_valuesSum]
    exact (h.map _).sum_eq
  have hkm : ∀ c t, t ∈ keys ((train docs1).wordCounts c) ↔
      t ∈ keys ((train docs2).wordCounts c) := by
    intro c t
    rw [train_mem_keys, train_mem_keys]
    constructor
    · rintro ⟨d, hd, hx⟩; exact ⟨d, h.mem_iff.mp hd, hx⟩
    · rintro ⟨d, hd, hx⟩; exact ⟨d, h.mem_iff.mpr hd, hx⟩
  have hvm : ∀ t, t ∈ (train docs1).vocab ↔ t ∈ (train docs2).vocab := by
    intro t
    rw [train_mem_vocab, train_mem_vocab]
    constructor
    · rintro ⟨d, hd, hx⟩; exact ⟨d, h.mem_iff.mp hd, hx⟩
    · rintro ⟨d, hd, hx⟩; exact ⟨d, h.mem_iff.mpr hd, hx⟩
  have hvl : (train docs1).vocab.length = (train docs2).vocab.length := by
    have hperm : (train docs1).vocab.Perm ((train docs2).vocab) :=
      (List.perm_ext_iff_of_nodup (train_nodup_vocab docs1) (train_nodup_vocab docs2)).mpr hvm
    exact hperm.length_eq
  exact ⟨⟨hcc, htd, hlk, hkm, hvs, hvm, hvl⟩,
    fun text => predict_congr _ _ (scoreOf_congr _ _ hcc htd hlk hvs hvl) text⟩

/-- C8, witness: a concrete two-document corpus and its swap; the hypothesis
(the permutation) is discharged by computation. -/
theorem claim_C8_witness :
    (([⟨"good stuff".toList, Category.Positive⟩,
        ⟨"bad stuff".toList, Category.Negative⟩] : List Doc).Perm
      [⟨"bad stuff".toList, Category.Negative⟩,
        ⟨"good stuff".toList, Category.Positive⟩]) ∧
      (stateIdentical
          (train [⟨"good stuff".toList, Category.Positive⟩,
            ⟨"bad stuff".toList, Category.Negative⟩])
          (train [⟨"bad stuff".toList, Category.Negative⟩,
            ⟨"good stuff".toList, Category.Positive⟩]) ∧
        ∀ text : List Char,
          predict (train [⟨"good stuff".toList, Category.Positive⟩,
              ⟨"bad stuff".toList, Category.Negative⟩]) text =
            predict (train [⟨"bad stuff".toList, Category.Negative⟩,
              ⟨"good stuff".toList, Category.Positive⟩]) text) :=
  ⟨List.Perm.swap _ _ _, claim_C8 _ _ (List.Perm.swap _ _ _)⟩

/-! ## JS-level lemmas for invalid labels -/

theorem assocSet_keys (l : List (String × ProtoObj)) (k : String)
    (w : ProtoObj) : (assocSet l k w).map Prod.fst = l.map Prod.fst := by
  induction l with
  | nil => rfl
  | cons qv rest ih =>
    obtain ⟨q, v⟩ := qv
    by_cases hq : q = k
    · simp [assocSet, hq]
    · simp [assocSet, hq, ih]

theorem lookup_isSome_iff (l : List (String × ProtoObj)) (k : String) :
    (List.lookup k l).isSome = true ↔ k ∈ l.map Prod.fst := by
  induction l with
  | nil => simp
  | cons qv rest ih =>
    obtain ⟨q, v⟩ := qv
    by_cases hq : k = q
    · subst hq; simp [List.lookup]
    · have hbeq : (k == q) = false := beq_eq_false_iff_ne.mpr hq
      simp only [List.lookup, hbeq, List.map_cons, List.mem_cons]
      rw [ih]
      exact ⟨Or.inr, fun h => h.elim (fun e => absurd e hq) id⟩

theorem ccIncr_lookup (l : List (String × JsCount)) (k q : String) :
    List.lookup q (ccIncr l k) =
      if q = k then
        (match List.lookup k l with
          | some v => some (v.map (· + 1))
          | none => if k = "__proto__" then none else some none)
      else List.lookup q l := by
  induction l with
  | nil =>
    by_cases hq : q = k
    · subst hq
      by_cases hp : q = "__proto__"
      · simp [ccIncr, List.lookup, hp]
      · simp [ccIncr, List.lookup, hp]
    · have hbeq : (q == k) = false := beq_eq_false_iff_ne.mpr hq
      by_cases hp : k = "__proto__"
      · simp [ccIncr, List.lookup, hbeq, hq, hp]
      · simp [ccIncr, List.lookup, hbeq, hq, hp]
  | cons pv rest ih =>
    obtain ⟨p, v⟩ := pv
    by_cases hp : p = k
    · subst hp
      by_cases hq : q = p
      · subst hq; simp [ccIncr, List.lookup]
      · have hbeq : (q == p) = false := beq_eq_false_iff_ne.mpr hq
        simp [ccIncr, List.lookup, hbeq, hq]
    · by_cases hq : q = p
      · subst hq
        have hqk : ¬(q = k) := hp
        simp [ccIncr, hp, List.lookup, hqk]
      · have hbeq : (q == p) = false := beq_eq_false_iff_ne.mpr hq
        have hbeq2 : (k == p) = false := beq_eq_false_iff_ne.mpr (fun e => hp e.symm)
        simp [ccIncr, hp, List.lookup, hbeq, hbeq2, ih]

theorem tokFold_ok (lab : String) (toks : List Term) :
    ∀ m : JSModel, (List.lookup lab m.wordCounts).isSome = true →
      ∃ s, toks.foldlM (tokStepJS lab) m = Except.ok s ∧
        s.wordCounts.map Prod.fst = m.wordCounts.map Prod.fst ∧
        s.classCounts = m.classCounts ∧ s.totalDocs = m.totalDocs := by
  induction toks with
  | nil => exact fun m _ => ⟨m, rfl, rfl, rfl, rfl⟩
  | cons t ts ih =>
    intro m hm
    obtain ⟨wc, hwc⟩ := Option.isSome_iff_exists.mp hm
    set m2 : JSModel :=
      { m with
        vocab := setAdd m.vocab t
        wordCounts := assocSet m.wordCounts lab (protoIncr wc t) } with hm2
    have hstep : tokStepJS lab m t = Except.ok m2 := by
      simp only [tokStepJS]
      rw [hwc]
    have hm2keys : m2.wordCounts.map Prod.fst = m.wordCounts.map Prod.fst :=
      assocSet_keys _ _ _
    have hm2some : (List.lookup lab m2.wordCounts).isSome = true := by
      rw [lookup_isSome_iff, hm2keys, ← lookup_isSome_iff]
      exact hm
    obtain ⟨s, hs, hskeys, hscc, hstd⟩ := ih m2 hm2some
    refine ⟨s, ?_, by rw [hskeys, hm2keys], hscc, hstd⟩
    rw [List.foldlM_cons, hstep]
    exact hs

theorem ccIncr_proto_none (l : List (String × JsCount)) (k : String)
    (h : List.lookup "__proto__" l = none) :
    List.lookup "__proto__" (ccIncr l k) = none := by
  rw [ccIncr_lookup]
  by_cases hk : "__proto__" = k
  · subst hk
    simp [h]
  · rw [if_neg hk]
    exact h

theorem trainJS_aux (docs : List RawDoc) :
    ∀ m : JSModel, m.wordCounts.map Prod.fst = categoryNames →
      (∀ k, k ∉ categoryNames →
        List.lookup k m.classCounts = none ∨ List.lookup k m.classCounts = some none) →
      (∀ d ∈ docs, d.label ∉ categoryNames → tokenize d.text = []) →
      ∃ s, docs.foldlM trainDocJS m = Except.ok s ∧
        s.wordCounts.map Prod.fst = categoryNames ∧
        (∀ d ∈ docs, d.label ∉ categoryNames → d.label ≠ "__proto__" →
          List.lookup d.label s.classCounts = some none) ∧
        (∀ k, k ∉ categoryNames → List.lookup k m.classCounts = some none →
          List.lookup k s.classCounts = some none) ∧
        (List.lookup "__proto__" m.classCounts = none →
          List.lookup "__proto__" s.classCounts = none) := by
  induction docs with
  | nil => exact fun m hkeys hinv _ => ⟨m, rfl, hkeys, fun d hd => absurd hd (List.not_mem_nil d), fun _ _ hk => hk, fun hp => hp⟩
  | cons d ds ih =>
    intro m hkeys hinv h
    by_cases hd : d.label ∈ categoryNames
    · -- valid label: the token loop runs and succeeds
      have hsome : (List.lookup d.label m.wordCounts).isSome = true := by
        rw [lookup_isSome_iff, hkeys]
        exact hd
      obtain ⟨m3, hm3, hm3keys, hm3cc, -⟩ :=
        tokFold_ok d.label (tokenize d.text)
          { m with
            totalDocs := m.totalDocs + 1
            classCounts := ccIncr m.classCounts d.label } hsome
      have hdoc : trainDocJS m d = Except.ok m3 := hm3
      have hm3keys2 : m3.wordCounts.map Prod.fst = categoryNames := by
        rw [hm3keys]; exact hkeys
      have hcc3 : ∀ k, k ≠ d.label →
          List.lookup k m3.classCounts = List.lookup k m.classCounts := by
        intro k hk
        rw [hm3cc]
        show List.lookup k (ccIncr m.classCounts d.label) = _
        rw [ccIncr_lookup, if_neg hk]
      have hinv3 : ∀ k, k ∉ categoryNames →
          List.lookup k m3.classCounts = none ∨ List.lookup k m3.classCounts = some none := by
        intro k hk
        rw [hcc3 k (fun e => hk (e ▸ hd))]
        exact hinv k hk
      obtain ⟨s, hs, hskeys, hsdocs, hspers, hsproto⟩ := ih m3 hm3keys2 hinv3
        (fun x hx => h x (List.mem_cons_of_mem d hx))
      have hproto_ne : "__proto__" ≠ d.label := by
        intro e
        rw [← e] at hd
        exact absurd hd (by decide)
      refine ⟨s, ?_, hskeys, ?_, ?_, ?_⟩
      · rw [List.foldlM_cons, hdoc]
        exact hs
      · intro x hx hxlab hxnp
        rcases List.mem_cons.mp hx with rfl | hx2
        · exact absurd hd hxlab
        · exact hsdocs x hx2 hxlab hxnp
      · intro k hk hsome2
        refine hspers k hk ?_
        rw [hcc3 k (fun e => hk (e ▸ hd))]
        exact hsome2
      · intro hpn
        refine hsproto ?_
        rw [hcc3 "__proto__" hproto_ne]
        exact hpn
    · -- invalid label: its text must tokenize to nothing, the loop is empty
      have htok : tokenize d.text = [] := h d (List.mem_cons_self d ds) hd
      set m1 : JSModel :=
        { m with
          totalDocs := m.totalDocs + 1
          classCounts := ccIncr m.classCounts d.label } with hm1def
      have hdoc : trainDocJS m d = Except.ok m1 := by
        simp only [trainDocJS, htok, List.foldlM_nil]
        rfl
      have hlabel1 : d.label ≠ "__proto__" →
          List.lookup d.label m1.classCounts = some none := by
        intro hnp
        show List.lookup d.label (ccIncr m.classCounts d.label) = some none
        rw [ccIncr_lookup, if_pos rfl]
        rcases hinv d.label hd with hnone | hnan
        · rw [hnone]
          simp [hnp]
        · rw [hnan]
          rfl
      have hlab_pres : List.lookup d.label m1.classCounts = none ∨
          List.lookup d.label m1.classCounts = some none := by
        by_cases hnp : d.label = "__proto__"
        · show List.lookup d.label (ccIncr m.classCounts d.label) = none ∨
            List.lookup d.label (ccIncr m.classCounts d.label) = some none
          rw [ccIncr_lookup, if_pos rfl]
          rcases hinv d.label hd with hnone | hnan
          · rw [hnone]
            left
            simp [hnp]
          · rw [hnan]
            right
            rfl
        · exact Or.inr (hlabel1 hnp)
      have hcc1 : ∀ k, k ≠ d.label →
          List.lookup k m1.classCounts = List.lookup k m.classCounts := by
        intro k hk
        show List.lookup k (ccIncr m.classCounts d.label) = _
        rw [ccIncr_lookup, if_neg hk]
      have hinv1 : ∀ k, k ∉ categoryNames →
          List.lookup k m1.classCounts = none ∨ List.lookup k m1.classCounts = some none := by
        intro k hk
        by_cases hkd : k = d.label
        · subst hkd
          exact hlab_pres
        · rw [hcc1 k hkd]
          exact hinv k hk
      obtain ⟨s, hs, hskeys, hsdocs, hspers, hsproto⟩ := ih m1 hkeys hinv1
        (fun x hx => h x (List.mem_cons_of_mem d hx))
      refine ⟨s, ?_, hskeys, ?_, ?_, ?_⟩
      · rw [List.foldlM_cons, hdoc]
        exact hs
      · intro x hx hxlab hxnp
        rcases List.mem_cons.mp hx with rfl | hx2
        · exact hspers x.label hxlab (hlabel1 hxnp)
        · exact hsdocs x hx2 hxlab hxnp
      · intro k hk hsome2
        refine hspers k hk ?_
        by_cases hkd : k = d.label
        · subst hkd
          show List.lookup d.label (ccIncr m.classCounts d.label) = some none
          rw [ccIncr_lookup, if_pos rfl, hsome2]
          rfl
        · rw [hcc1 k hkd]
          exact hsome2
      · intro hpn
        refine hsproto ?_
        show List.lookup "__proto__" (ccIncr m.classCounts d.label) = none
        exact ccIncr_proto_none m.classCounts d.label hpn

theorem lookup_filter_keep (l : List (String × JsCount)) (k : String)
    (hk : categoryNames.contains k = true) :
    List.lookup k (l.filter (fun p => categoryNames.contains p.1)) =
      List.lookup k l := by
  induction l with
  | nil => rfl
  | cons qv rest ih =>
    obtain ⟨q, v⟩ := qv
    by_cases hcq : q ∈ categoryNames
    · rw [List.filter_cons_of_pos (by simpa using hcq)]
      by_cases hq : k = q
      · subst hq
        simp [List.lookup]
      · have hbeq : (k == q) = false := beq_eq_false_iff_ne.mpr hq
        simp only [List.lookup, hbeq, cond_false]
        simpa using ih
    · have hq : k ≠ q := fun e => hcq (e ▸ (by simpa using hk))
      have hbeq : (k == q) = false := beq_eq_false_iff_ne.mpr hq
      rw [List.filter_cons_of_neg (by simpa using hcq)]
      rw [ih]
      simp [List.lookup, hbeq]

theorem scoreJS_restrict (m : JSModel) (tokens : List Term) (c : Category) :
    scoreJS (restrictJS m) tokens c = scoreJS m tokens c := by
  have h4 : List.lookup c.name (restrictJS m).classCounts =
      List.lookup c.name m.classCounts := by
    apply lookup_filter_keep
    cases c <;> rfl
  unfold scoreJS
  rw [h4]
  rfl

theorem predictJS_restrict (m : JSModel) (text : List Char) :
    predictJS m text = predictJS (restrictJS m) text := by
  have hs : scoreJS (restrictJS m) (tokenize text) = scoreJS m (tokenize text) := by
    funext c
    exact scoreJS_restrict m (tokenize text) c
  simp only [predictJS]
  rw [hs]

/-- C3, counterexample: `fit` on a corpus containing the document
`{text: "hello", label: "Bad"}` does crash: `classCounts["Bad"]++` stores
`NaN` without error, but the first token then evaluates
`this.wordCounts["Bad"]["hello"]`, and `this.wordCounts["Bad"]` is
`undefined` (`"Bad"` is no `Object.prototype` property either), so a
`TypeError` is thrown — the call does not complete. -/
theorem claim_C3_counterexample :
    trainJS [⟨"hello".toList, "Bad"⟩] = Except.error TrainErr.typeError := rfl

/-- C3, amended: a fit call whose invalid-labelled documents all have texts
that tokenize to nothing does complete without error; it stores `NaN`
(`some none`) as the class count of each such extra label — except the label
`"__proto__"`, whose inherited setter discards the write, so nothing at all
is stored — and `predict` never reads those statistics: its result is
unchanged when the extra entries are removed.  (If an invalid-labelled
document has a token, the call instead throws a `TypeError` — as the
counterexample shows — unless the label names an `Object.prototype`
property, in which case the token loop writes through the inherited object,
leaving the modelled fragment.) -/
theorem claim_C3 (docs : List RawDoc)
    (h : ∀ d ∈ docs, d.label ∉ categoryNames → tokenize d.text = []) :
    ∃ s, trainJS docs = Except.ok s ∧
      (∀ d ∈ docs, d.label ∉ categoryNames → d.label ≠ "__proto__" →
        List.lookup d.label s.classCounts = some none) ∧
      List.lookup "__proto__" s.classCounts = none ∧
      ∀ text : List Char, predictJS s text = predictJS (restrictJS s) text := by
  have hinv0 : ∀ k, k ∉ categoryNames →
      List.lookup k resetJS.classCounts = none ∨
        List.lookup k resetJS.classCounts = some none := by
    intro k hk
    simp only [categoryNames, List.mem_cons, List.not_mem_nil, or_false] at hk
    push_neg at hk
    obtain ⟨h1, h2, h3⟩ := hk
    left
    have b1 : (k == "Positive") = false := beq_eq_false_iff_ne.mpr h1
    have b2 : (k == "Negative") = false := beq_eq_false_iff_ne.mpr h2
    have b3 : (k == "Neutral") = false := beq_eq_false_iff_ne.mpr h3
    simp [resetJS, List.lookup, b1, b2, b3]
  obtain ⟨s, hs, -, hdocs, -, hproto⟩ := trainJS_aux docs resetJS rfl hinv0 h
  exact ⟨s, hs, hdocs, hproto (by decide), fun text => predictJS_restrict s text⟩

/-- C3, witness: the corpus `[{text: "hi", label: "Spam"}]` has an invalid
label but `"hi"` tokenizes to nothing (length ≤ 2), so the call completes,
stores `NaN` under `"Spam"`, and `predict` ignores it. -/
theorem claim_C3_witness :
    (∀ d ∈ ([⟨"hi".toList, "Spam"⟩] : List RawDoc),
        d.label ∉ categoryNames → tokenize d.text = []) ∧
      ∃ s, trainJS [⟨"hi".toList, "Spam"⟩] = Except.ok s ∧
        (∀ d ∈ ([⟨"hi".toList, "Spam"⟩] : List RawDoc),
          d.label ∉ categoryNames → d.label ≠ "__proto__" →
            List.lookup d.label s.classCounts = some none) ∧
        List.lookup "__proto__" s.classCounts = none ∧
        ∀ text : List Char, predictJS s text = predictJS (restrictJS s) text :=
  ⟨by decide, claim_C3 _ (by decide)⟩

/-! ## The log-sum inequality and counting lemmas for C6 -/

theorem sum_lookupD_le (l : List (Term × Nat)) :
    ∀ D : Finset Term, (∑ t in D, lookupD l t) ≤ valuesSum l := by
  induction l with
  | nil =>
    intro D
    simp [lookupD, valuesSum]
  | cons kv rest ih =>
    intro D
    obtain ⟨k, v⟩ := kv
    by_cases hk : k ∈ D
    · have hsplit : ∑ t in D, lookupD ((k, v) :: rest) t =
          v + ∑ t in D.erase k, lookupD rest t := by
        rw [← Finset.add_sum_erase _ _ hk]
        congr 1
        · simp [lookupD]
        · refine Finset.sum_congr rfl ?_
          intro t ht
          have hne : k ≠ t := fun e => (Finset.ne_of_mem_erase ht) e.symm
          simp [lookupD, hne]
      rw [hsplit]
      have h2 := ih (D.erase k)
      simp only [valuesSum] at h2
      simp only [valuesSum, List.map_cons, List.sum_cons]
      omega
    · have hsplit : ∑ t in D, lookupD ((k, v) :: rest) t =
          ∑ t in D, lookupD rest t := by
        refine Finset.sum_congr rfl ?_
        intro t ht
        have hne : k ≠ t := fun e => hk (e ▸ ht)
        simp [lookupD, hne]
      rw [hsplit]
      have h2 := ih D
      simp only [valuesSum] at h2
      simp only [valuesSum, List.map_cons, List.sum_cons]
      omega

/-- The log-sum inequality over a finite index set, proved from
`log x ≤ x - 1`. -/
theorem logSum_ineq (s : Finset Term) (f g : Term → ℝ)
    (hf : ∀ i ∈ s, 0 < f i) (hg : ∀ i ∈ s, 0 < g i) :
    (∑ i in s, f i) * Real.log ((∑ i in s, f i) / (∑ i in s, g i)) ≤
      ∑ i in s, f i * Real.log (f i / g i) := by
  rcases Finset.eq_empty_or_nonempty s with rfl | hne
  · simp
  · set F := ∑ i in s, f i with hF
    set G := ∑ i in s, g i with hG
    have hFpos : 0 < F := Finset.sum_pos hf hne
    have hGpos : 0 < G := Finset.sum_pos hg hne
    have hterm : ∀ i ∈ s, f i * Real.log (F / G) ≤
        f i * Real.log (f i / g i) + (g i * F / G - f i) := by
      intro i hi
      have hfi := hf i hi
      have hgi := hg i hi
      have hx : 0 < g i * F / (f i * G) := by positivity
      have hlog := Real.log_le_sub_one_of_pos hx
      have hgF : (g i * F) ≠ 0 := by positivity
      have hfG : (f i * G) ≠ 0 := by positivity
      have hsplit : Real.log (g i * F / (f i * G)) =
          Real.log (F / G) - Real.log (f i / g i) := by
        rw [Real.log_div hgF hfG,
          Real.log_mul hgi.ne' hFpos.ne', Real.log_mul hfi.ne' hGpos.ne',
          Real.log_div hFpos.ne' hGpos.ne', Real.log_div hfi.ne' hgi.ne']
        ring
      have h2 : Real.log (F / G) - Real.log (f i / g i) ≤
          g i * F / (f i * G) - 1 := by
        rw [← hsplit]
        exact hlog
      have h3 := mul_le_mul_of_nonneg_left h2 hfi.le
      have h4 : f i * (g i * F / (f i * G) - 1) = g i * F / G - f i := by
        field_simp
        ring
      rw [mul_sub, h4] at h3
      linarith
    have hsum := Finset.sum_le_sum hterm
    rw [← Finset.sum_mul, ← hF] at hsum
    have hB : ∑ i in s, (g i * F / G - f i) = 0 := by
      rw [Finset.sum_sub_distrib, ← hF]
      have h5 : ∑ i in s, g i * F / G = G * F / G := by
        rw [← Finset.sum_div, ← Finset.sum_mul, ← hG]
      rw [h5]
      field_simp
    calc F * Real.log (F / G)
        ≤ ∑ i in s, (f i * Real.log (f i / g i) + (g i * F / G - f i)) := hsum
      _ = (∑ i in s, f i * Real.log (f i / g i)) +
          ∑ i in s, (g i * F / G - f i) := Finset.sum_add_distrib
      _ = ∑ i in s, f i * Real.log (f i / g i) := by rw [hB, add_zero]

/-- Core inequality behind the monotonic-correction property: moving `c t`
occurrences of each token `t` into a category whose per-token masses are
`u t` (with total at most `W`) increases the summed log-likelihood by at
least the loss caused by the denominator growing from `W` to `W + k`. -/
theorem likelihood_key (D : Finset Term) (u c : Term → ℝ)
    (hu : ∀ t ∈ D, 1 ≤ u t) (hc : ∀ t ∈ D, 1 ≤ c t)
    (W : ℝ) (hW : (∑ t in D, u t) ≤ W) (hne : D.Nonempty) :
    (∑ t in D, c t) * Real.log ((W + ∑ t in D, c t) / W) ≤
      ∑ t in D, c t * Real.log ((u t + c t) / u t) := by
  set U := ∑ t in D, u t with hU
  set k := ∑ t in D, c t with hk
  have hupos : ∀ t ∈ D, 0 < u t := fun t ht => lt_of_lt_of_le one_pos (hu t ht)
  have hcpos : ∀ t ∈ D, 0 < c t := fun t ht => lt_of_lt_of_le one_pos (hc t ht)
  have hUpos : 0 < U := Finset.sum_pos hupos hne
  have hkpos : 0 < k := Finset.sum_pos hcpos hne
  have hWpos : 0 < W := lt_of_lt_of_le hUpos hW
  have hsum_uc : ∑ t in D, (u t + c t) = U + k := by
    rw [Finset.sum_add_distrib, ← hU, ← hk]
  have hA := logSum_ineq D (fun t => u t + c t) u
    (fun t ht => add_pos (hupos t ht) (hcpos t ht)) hupos
  rw [hsum_uc, ← hU] at hA
  have hB := logSum_ineq D u (fun t => u t + c t) hupos
    (fun t ht => add_pos (hupos t ht) (hcpos t ht))
  rw [hsum_uc, ← hU] at hB
  have hpoint : ∑ t in D, c t * Real.log ((u t + c t) / u t) =
      (∑ t in D, (u t + c t) * Real.log ((u t + c t) / u t)) +
        ∑ t in D, u t * Real.log (u t / (u t + c t)) := by
    rw [← Finset.sum_add_distrib]
    refine Finset.sum_congr rfl ?_
    intro t ht
    have h1 : Real.log (u t / (u t + c t)) = - Real.log ((u t + c t) / u t) := by
      rw [Real.log_div (hupos t ht).ne' (add_pos (hupos t ht) (hcpos t ht)).ne',
        Real.log_div (add_pos (hupos t ht) (hcpos t ht)).ne' (hupos t ht).ne']
      ring
    rw [h1]
    ring
  have hUk : Real.log (U / (U + k)) = - Real.log ((U + k) / U) := by
    rw [Real.log_div hUpos.ne' (by positivity), Real.log_div (by positivity) hUpos.ne']
    ring
  have hcomb : k * Real.log ((U + k) / U) ≤
      ∑ t in D, c t * Real.log ((u t + c t) / u t) := by
    rw [hpoint]
    calc k * Real.log ((U + k) / U)
        = (U + k) * Real.log ((U + k) / U) + U * Real.log (U / (U + k)) := by
          rw [hUk]; ring
      _ ≤ _ := add_le_add hA hB
  have hmono : k * Real.log ((W + k) / W) ≤ k * Real.log ((U + k) / U) := by
    have hq : (W + k) / W ≤ (U + k) / U := by
      rw [div_le_div_iff₀ hWpos hUpos]
      nlinarith
    have hlog := Real.log_le_log (by positivity) hq
    exact mul_le_mul_of_nonneg_left hlog hkpos.le
  exact le_trans hmono hcomb

theorem count_instances_eq (t : Term) (l : List Term) :
    @List.count Term instBEqOfDecidableEq t l = List.count t l := by
  induction l with
  | nil => rfl
  | cons x xs ih =>
    by_cases h : x = t
    · subst h
      simp [List.count_cons, ih]
    · simp [List.count_cons, h, ih]

theorem list_sum_eq_finset_sum (tks : List Term) (f : Term → ℝ) :
    (tks.map f).sum = ∑ t in tks.toFinset, (tks.count t : ℝ) * f t := by
  have h1 := Finset.sum_multiset_map_count (tks : Multiset Term) f
  have hcnt : ∀ u : Term, @List.count Term instBEqOfDecidableEq u tks = List.count u tks :=
    fun u => count_instances_eq u tks
  simpa [nsmul_eq_mul, hcnt] using h1

theorem count_cast_sum (tks : List Term) :
    (∑ t in tks.toFinset, (tks.count t : ℝ)) = (tks.length : ℝ) := by
  have h1 := Multiset.toFinset_sum_count_eq (tks : Multiset Term)
  have hcnt : ∀ u : Term, @List.count Term instBEqOfDecidableEq u tks = List.count u tks :=
    fun u => count_instances_eq u tks
  have h2 : (∑ t in tks.toFinset, List.count t tks) = tks.length := by
    simpa [hcnt] using h1
  calc (∑ t in tks.toFinset, (tks.count t : ℝ))
      = ((∑ t in tks.toFinset, tks.count t : Nat) : ℝ) := by
        rw [Nat.cast_sum]
    _ = (tks.length : ℝ) := by rw [h2]

theorem jsOrD_le_succ (n : Nat) : jsOrD n 0.1 ≤ jsOrD (n + 1) 0.1 := by
  unfold jsOrD
  rw [if_neg (Nat.succ_ne_zero n)]
  split
  · rename_i h
    subst h
    push_cast
    norm_num
  · rename_i h
    exact_mod_cast Nat.le_succ n

theorem jsLog_jsDiv_le (a1 a2 b : ℝ) (h1 : 0 < a1) (hle : a1 ≤ a2) (hb : 0 < b) :
    jsLog (jsDiv a1 b) ≤ jsLog (jsDiv a2 b) := by
  rw [jsLog_jsDiv_coe _ _ hb.ne', jsLog_jsDiv_coe _ _ hb.ne', EReal.coe_le_coe_iff]
  exact Real.log_le_log (by positivity) ((div_le_div_iff_of_pos_right hb).mpr hle)

theorem train_relabel_facts (pre post : List Doc) (T : List Char) :
    (train (pre ++ ⟨T, Category.Positive⟩ :: post)).vocab =
        (train (pre ++ ⟨T, Category.Negative⟩ :: post)).vocab ∧
      (train (pre ++ ⟨T, Category.Positive⟩ :: post)).totalDocs =
        (train (pre ++ ⟨T, Category.Negative⟩ :: post)).totalDocs ∧
      (train (pre ++ ⟨T, Category.Positive⟩ :: post)).classCounts Category.Positive =
        (train (pre ++ ⟨T, Category.Negative⟩ :: post)).classCounts Category.Positive + 1 ∧
      (∀ t, lookupD ((train (pre ++ ⟨T, Category.Positive⟩ :: post)).wordCounts
            Category.Positive) t =
          lookupD ((train (pre ++ ⟨T, Category.Negative⟩ :: post)).wordCounts
            Category.Positive) t + (tokenize T).count t) ∧
      valuesSum ((train (pre ++ ⟨T, Category.Positive⟩ :: post)).wordCounts
          Category.Positive) =
        valuesSum ((train (pre ++ ⟨T, Category.Negative⟩ :: post)).wordCounts
          Category.Positive) + (tokenize T).length := by
  refine ⟨?_, ?_, ?_, ?_, ?_⟩
  · rw [train_vocab, train_vocab, List.foldl_append, List.foldl_append,
      List.foldl_cons, List.foldl_cons]
  · rw [train_totalDocs, train_totalDocs]
    simp
  · rw [train_classCounts, train_classCounts, List.countP_append, List.countP_append,
      List.countP_cons, List.countP_cons]
    simp
    omega
  · intro t
    rw [train_lookupD, train_lookupD, tfSem, tfSem, List.map_append, List.map_append,
      List.sum_append, List.sum_append, List.map_cons, List.map_cons,
      List.sum_cons, List.sum_cons]
    simp
    omega
  · rw [train_valuesSum, train_valuesSum, ttSem, ttSem, List.map_append, List.map_append,
      List.sum_append, List.sum_append, List.map_cons, List.map_cons,
      List.sum_cons, List.sum_cons]
    simp
    omega

/-- Relabelling one document into a category cannot decrease the summed
log-likelihood of that document's own tokens under the category, despite the
denominator growing: list-level form. -/
theorem likelihood_list_le (tks : List Term) (aN : Term → Nat) (SN VN : Nat)
    (hSsum : (∑ t in tks.toFinset, aN t) ≤ SN)
    (hcard : tks.toFinset.card ≤ VN) (hV : 1 ≤ VN) (htne : tks ≠ []) :
    (tks.map (fun t => Real.log (((aN t : ℝ) + 1) / ((SN : ℝ) + (VN : ℝ))))).sum ≤
      (tks.map (fun t => Real.log ((((aN t : ℝ) + 1) + (tks.count t : ℝ)) /
        (((SN : ℝ) + (VN : ℝ)) + (tks.length : ℝ))))).sum := by
  obtain ⟨t0, ht0⟩ := List.exists_mem_of_ne_nil _ htne
  have hDne : tks.toFinset.Nonempty := ⟨t0, List.mem_toFinset.mpr ht0⟩
  have hVR : (1 : ℝ) ≤ (VN : ℝ) := by exact_mod_cast hV
  have hSR : (0 : ℝ) ≤ (SN : ℝ) := Nat.cast_nonneg _
  have hWpos : (0 : ℝ) < (SN : ℝ) + (VN : ℝ) := by linarith
  have hu : ∀ t ∈ tks.toFinset, (1 : ℝ) ≤ (aN t : ℝ) + 1 := by
    intro t ht
    have h0 : (0 : ℝ) ≤ (aN t : ℝ) := Nat.cast_nonneg _
    linarith
  have hc : ∀ t ∈ tks.toFinset, (1 : ℝ) ≤ (tks.count t : ℝ) := by
    intro t ht
    have h1 : 0 < tks.count t := List.count_pos_iff.mpr (List.mem_toFinset.mp ht)
    exact_mod_cast h1
  have hWsum : (∑ t in tks.toFinset, ((aN t : ℝ) + 1)) ≤ (SN : ℝ) + (VN : ℝ) := by
    rw [Finset.sum_add_distrib]
    have h1 : (∑ t in tks.toFinset, (aN t : ℝ)) ≤ (SN : ℝ) := by
      rw [← Nat.cast_sum]
      exact_mod_cast hSsum
    have h2 : (∑ t in tks.toFinset, (1 : ℝ)) ≤ (VN : ℝ) := by
      rw [Finset.sum_const, nsmul_eq_mul, mul_one]
      exact_mod_cast hcard
    linarith
  have hkey := likelihood_key tks.toFinset (fun t => (aN t : ℝ) + 1)
    (fun t => (tks.count t : ℝ)) hu hc ((SN : ℝ) + (VN : ℝ)) hWsum hDne
  rw [count_cast_sum] at hkey
  rw [list_sum_eq_finset_sum, list_sum_eq_finset_sum]
  have hexpand : ∀ t ∈ tks.toFinset,
      (tks.count t : ℝ) * Real.log ((((aN t : ℝ) + 1) + (tks.count t : ℝ)) /
          (((SN : ℝ) + (VN : ℝ)) + (tks.length : ℝ))) -
        (tks.count t : ℝ) * Real.log (((aN t : ℝ) + 1) / ((SN : ℝ) + (VN : ℝ))) =
      (tks.count t : ℝ) * Real.log ((((aN t : ℝ) + 1) + (tks.count t : ℝ)) /
          ((aN t : ℝ) + 1)) -
        (tks.count t : ℝ) * Real.log ((((SN : ℝ) + (VN : ℝ)) + (tks.length : ℝ)) /
          ((SN : ℝ) + (VN : ℝ))) := by
    intro t ht
    have hu1 : (0 : ℝ) < (aN t : ℝ) + 1 := by positivity
    have hc0 : (0 : ℝ) ≤ (tks.count t : ℝ) := Nat.cast_nonneg _
    have huc : (0 : ℝ) < ((aN t : ℝ) + 1) + (tks.count t : ℝ) := by linarith
    have hkR : (0 : ℝ) ≤ (tks.length : ℝ) := Nat.cast_nonneg _
    have hWk : (0 : ℝ) < ((SN : ℝ) + (VN : ℝ)) + (tks.length : ℝ) := by linarith
    rw [Real.log_div huc.ne' hWk.ne', Real.log_div hu1.ne' hWpos.ne',
      Real.log_div huc.ne' hu1.ne', Real.log_div hWk.ne' hWpos.ne']
    ring
  have hdiff : (∑ t in tks.toFinset, (tks.count t : ℝ) *
        Real.log ((((aN t : ℝ) + 1) + (tks.count t : ℝ)) /
          (((SN : ℝ) + (VN : ℝ)) + (tks.length : ℝ)))) -
      (∑ t in tks.toFinset, (tks.count t : ℝ) *
        Real.log (((aN t : ℝ) + 1) / ((SN : ℝ) + (VN : ℝ)))) =
      (∑ t in tks.toFinset, (tks.count t : ℝ) *
        Real.log ((((aN t : ℝ) + 1) + (tks.count t : ℝ)) / ((aN t : ℝ) + 1))) -
      (tks.length : ℝ) * Real.log ((((SN : ℝ) + (VN : ℝ)) + (tks.length : ℝ)) /
        ((SN : ℝ) + (VN : ℝ))) := by
    rw [← Finset.sum_sub_distrib, Finset.sum_congr rfl hexpand, Finset.sum_sub_distrib,
      ← Finset.sum_mul, count_cast_sum]
  linarith [hkey, hdiff]

/-- In the prototype-free fragment, relabelling one Negative document as
Positive and re-fitting never decreases the Positive score of the document's
own text. -/
theorem predict_relabel_le (pre post : List Doc) (T : List Char) :
    (predict (train (pre ++ ⟨T, Category.Negative⟩ :: post)) T).2 Category.Positive ≤
      (predict (train (pre ++ ⟨T, Category.Positive⟩ :: post)) T).2 Category.Positive := by
  obtain ⟨hvoc, htot, hcc, hlk, hvs⟩ := train_relabel_facts pre post T
  rw [predict_snd, predict_snd]
  by_cases htk : tokenize T = []
  · rw [scoreOf_eq_sum, scoreOf_eq_sum, htk]
    simp only [List.map_nil, List.sum_nil, add_zero]
    rw [hcc, htot]
    exact jsLog_jsDiv_le _ _ _ (jsOrD_pos _ _ (by norm_num)) (jsOrD_le_succ _)
      (jsOrD_pos _ _ one_pos)
  · obtain ⟨t0, ht0⟩ := List.exists_mem_of_ne_nil _ htk
    have hvmem : ∀ t ∈ tokenize T,
        t ∈ (train (pre ++ ⟨T, Category.Negative⟩ :: post)).vocab := by
      intro t ht
      rw [train_mem_vocab]
      exact ⟨⟨T, Category.Negative⟩, List.mem_append_right _ (List.mem_cons_self _ _), ht⟩
    have hvne : (train (pre ++ ⟨T, Category.Negative⟩ :: post)).vocab ≠ [] := by
      intro hnil
      have hmem := hvmem t0 ht0
      rw [hnil] at hmem
      exact List.not_mem_nil t0 hmem
    have hVnat : 1 ≤ (train (pre ++ ⟨T, Category.Negative⟩ :: post)).vocab.length :=
      List.length_pos.mpr hvne
    have hV1 : (1 : ℝ) ≤
        ((train (pre ++ ⟨T, Category.Negative⟩ :: post)).vocab.length : ℝ) := by
      exact_mod_cast hVnat
    have hS0 : (0 : ℝ) ≤ ((valuesSum ((train (pre ++ ⟨T, Category.Negative⟩ ::
        post)).wordCounts Category.Positive)) : ℝ) := Nat.cast_nonneg _
    have hden1 : ((valuesSum ((train (pre ++ ⟨T, Category.Negative⟩ ::
          post)).wordCounts Category.Positive) : ℝ) +
        ((train (pre ++ ⟨T, Category.Negative⟩ :: post)).vocab.length : ℝ)) ≠ 0 := by
      have hpos : (0 : ℝ) < (valuesSum ((train (pre ++ ⟨T, Category.Negative⟩ ::
            post)).wordCounts Category.Positive) : ℝ) +
          ((train (pre ++ ⟨T, Category.Negative⟩ :: post)).vocab.length : ℝ) := by
        linarith
      exact hpos.ne'
    have hden2 : ((valuesSum ((train (pre ++ ⟨T, Category.Positive⟩ ::
          post)).wordCounts Category.Positive) : ℝ) +
        ((train (pre ++ ⟨T, Category.Positive⟩ :: post)).vocab.length : ℝ)) ≠ 0 := by
      rw [hvs, hvoc]
      push_cast
      have hk0 : (0 : ℝ) ≤ ((tokenize T).length : ℝ) := Nat.cast_nonneg _
      have hpos : (0 : ℝ) < (valuesSum ((train (pre ++ ⟨T, Category.Negative⟩ ::
            post)).wordCounts Category.Positive) : ℝ) + ((tokenize T).length : ℝ) +
          ((train (pre ++ ⟨T, Category.Negative⟩ :: post)).vocab.length : ℝ) := by
        linarith
      exact hpos.ne'
    rw [scoreOf_eq_realScore _ _ _ (Or.inl hden1),
      scoreOf_eq_realScore _ _ _ (Or.inl hden2), EReal.coe_le_coe_iff]
    unfold realScore
    have hprior : Real.log (jsOrD ((train (pre ++ ⟨T, Category.Negative⟩ ::
          post)).classCounts Category.Positive) 0.1 /
        jsOrD (train (pre ++ ⟨T, Category.Negative⟩ :: post)).totalDocs 1) ≤
        Real.log (jsOrD ((train (pre ++ ⟨T, Category.Positive⟩ ::
          post)).classCounts Category.Positive) 0.1 /
        jsOrD (train (pre ++ ⟨T, Category.Positive⟩ :: post)).totalDocs 1) := by
      rw [hcc, htot]
      have hA1 : (0 : ℝ) < jsOrD ((train (pre ++ ⟨T, Category.Negative⟩ ::
          post)).classCounts Category.Positive) 0.1 := jsOrD_pos _ _ (by norm_num)
      have hB1 : (0 : ℝ) < jsOrD (train (pre ++ ⟨T, Category.Negative⟩ ::
          post)).totalDocs 1 := jsOrD_pos _ _ one_pos
      refine Real.log_le_log (by positivity) ?_
      exact (div_le_div_iff_of_pos_right hB1).mpr (jsOrD_le_succ _)
    refine add_le_add hprior ?_
    have hmap2 : ((tokenize T).map (fun t =>
        Real.log (((lookupD ((train (pre ++ ⟨T, Category.Positive⟩ ::
            post)).wordCounts Category.Positive) t : ℝ) + 1) /
          ((valuesSum ((train (pre ++ ⟨T, Category.Positive⟩ ::
            post)).wordCounts Category.Positive) : ℝ) +
           ((train (pre ++ ⟨T, Category.Positive⟩ :: post)).vocab.length : ℝ))))) =
        ((tokenize T).map (fun t =>
          Real.log ((((lookupD ((train (pre ++ ⟨T, Category.Negative⟩ ::
              post)).wordCounts Category.Positive) t : ℝ) + 1) +
              ((tokenize T).count t : ℝ)) /
            (((valuesSum ((train (pre ++ ⟨T, Category.Negative⟩ ::
              post)).wordCounts Category.Positive) : ℝ) +
             ((train (pre ++ ⟨T, Category.Negative⟩ :: post)).vocab.length : ℝ)) +
             ((tokenize T).length : ℝ))))) := by
      apply List.map_congr_left
      intro t ht
      rw [hlk t, hvs, hvoc]
      push_cast
      congr 1
      ring
    rw [hmap2]
    exact likelihood_list_le (tokenize T)
      (fun t => lookupD ((train (pre ++ ⟨T, Category.Negative⟩ ::
        post)).wordCounts Category.Positive) t)
      (valuesSum ((train (pre ++ ⟨T, Category.Negative⟩ ::
        post)).wordCounts Category.Positive))
      ((train (pre ++ ⟨T, Category.Negative⟩ :: post)).vocab.length)
      (sum_lookupD_le _ _)
      (by
        have hsub : (tokenize T).toFinset ⊆
            (train (pre ++ ⟨T, Category.Negative⟩ :: post)).vocab.toFinset := by
          intro t ht
          exact List.mem_toFinset.mpr (hvmem t (List.mem_toFinset.mp ht))
        calc (tokenize T).toFinset.card
            ≤ (train (pre ++ ⟨T, Category.Negative⟩ ::
                post)).vocab.toFinset.card := Finset.card_le_card hsub
          _ = (train (pre ++ ⟨T, Category.Negative⟩ :: post)).vocab.length :=
              List.toFinset_card_of_nodup (train_nodup_vocab _))
      hVnat htk


/-! ## Prototype-aware lemmas -/

theorem jsAdd_nan (x : JsNum) : jsAdd x JsNum.nan = JsNum.nan := by
  cases x <;> rfl

theorem nan_jsAdd (x : JsNum) : jsAdd JsNum.nan x = JsNum.nan := by
  cases x <;> rfl

theorem foldl_jsAdd_acc_nan (g : Term → JsNum) (l : List Term) :
    l.foldl (fun acc t => jsAdd acc (g t)) JsNum.nan = JsNum.nan := by
  induction l with
  | nil => rfl
  | cons t ts ih => rw [List.foldl_cons, nan_jsAdd, ih]

theorem foldl_jsAdd_num (g : Term → EReal) (l : List Term) :
    ∀ a : EReal, l.foldl (fun acc t => jsAdd acc (JsNum.num (g t))) (JsNum.num a) =
      JsNum.num (l.foldl (fun acc t => acc + g t) a) := by
  induction l with
  | nil => intro a; rfl
  | cons t ts ih =>
    intro a
    rw [List.foldl_cons, List.foldl_cons]
    exact ih (a + g t)

theorem foldl_jsAdd_congr (g1 g2 : Term → JsNum) (l : List Term)
    (h : ∀ t ∈ l, g1 t = g2 t) :
    ∀ a : JsNum, l.foldl (fun acc t => jsAdd acc (g1 t)) a =
      l.foldl (fun acc t => jsAdd acc (g2 t)) a := by
  induction l with
  | nil => intro a; rfl
  | cons t ts ih =>
    intro a
    rw [List.foldl_cons, List.foldl_cons, h t (List.mem_cons_self t ts)]
    exact ih (fun u hu => h u (List.mem_cons_of_mem t hu)) _

theorem lookupD_eq_zero_of_not_mem (l : List (Term × Nat)) (t : Term)
    (h : t ∉ keys l) : lookupD l t = 0 := by
  induction l with
  | nil => rfl
  | cons kv rest ih =>
    obtain ⟨k, v⟩ := kv
    have hk : ¬(k = t) := fun e => h (by simp [keys, e])
    simp only [lookupD, if_neg hk]
    refine ih (fun hm => h ?_)
    simp only [keys, List.map_cons, List.mem_cons]
    exact Or.inr (by simpa [keys] using hm)

theorem mapNum_all_num (l : List (Term × Nat)) :
    (mapNum l).all
      (fun p => match p.2 with | JsVal.num _ => true | JsVal.objStr => false) = true := by
  rw [List.all_eq_true]
  intro p hp
  obtain ⟨q, hq, rfl⟩ := List.mem_map.mp hp
  rfl

theorem valuesSumP_mapNum (l : List (Term × Nat)) :
    valuesSumP (mapNum l) = JsVal.num (valuesSum l) := by
  unfold valuesSumP
  rw [if_pos (mapNum_all_num l)]
  congr 1
  unfold valuesSum mapNum
  rw [List.map_map]
  exact congrArg List.sum (List.map_congr_left (fun p _ => rfl))

theorem lookupV_mapNum (l : List (Term × Nat)) (t : Term) :
    lookupV (mapNum l) t =
      if t ∈ keys l then some (JsVal.num (lookupD l t)) else none := by
  induction l with
  | nil => simp [mapNum, lookupV, keys]
  | cons kv rest ih =>
    obtain ⟨k, v⟩ := kv
    by_cases hk : k = t
    · subst hk
      simp [mapNum, lookupV, keys, lookupD]
    · have htk : ¬(t = k) := fun e => hk e.symm
      have h1 : lookupV (mapNum ((k, v) :: rest)) t = lookupV (mapNum rest) t := by
        simp only [mapNum, List.map_cons, lookupV, if_neg hk]
      have h2 : lookupD ((k, v) :: rest) t = lookupD rest t := by
        simp only [lookupD, if_neg hk]
      have h3 : t ∈ keys ((k, v) :: rest) ↔ t ∈ keys rest := by
        simp [keys, htk]
      rw [h1, ih, h2]
      by_cases hmem : t ∈ keys rest
      · rw [if_pos hmem, if_pos (h3.mpr hmem)]
      · rw [if_neg hmem, if_neg (fun hx => hmem (h3.mp hx))]

theorem protoRead_mapNum (l : List (Term × Nat)) (t : Term) (ht : protoKeyB t = false) :
    protoRead (mapNum l) t =
      if t ∈ keys l then some (ReadVal.num (lookupD l t)) else none := by
  unfold protoRead
  rw [lookupV_mapNum]
  by_cases hmem : t ∈ keys l
  · rw [if_pos hmem, if_pos hmem]
  · rw [if_neg hmem, if_neg hmem]
    simp [ht]

theorem protoIncrVal_num (n : Nat) :
    protoIncrVal (some (ReadVal.num n)) = JsVal.num (n + 1) := by
  by_cases h : n = 0
  · subst h; rfl
  · simp only [protoIncrVal, if_neg h]

theorem setV_mapNum_incr (l : List (Term × Nat)) (t : Term) :
    setV (mapNum l) t (JsVal.num (lookupD l t + 1)) = mapNum (assocIncr l t) := by
  induction l with
  | nil => rfl
  | cons kv rest ih =>
    obtain ⟨k, v⟩ := kv
    by_cases hk : k = t
    · subst hk
      simp [mapNum, setV, assocIncr, lookupD]
    · have h2 : lookupD ((k, v) :: rest) t = lookupD rest t := by
        simp only [lookupD, if_neg hk]
      have h3 : assocIncr ((k, v) :: rest) t = (k, v) :: assocIncr rest t := by
        simp only [assocIncr, if_neg hk]
      rw [h2, h3]
      show setV ((k, JsVal.num v) :: mapNum rest) t (JsVal.num (lookupD rest t + 1)) =
        (k, JsVal.num v) :: mapNum (assocIncr rest t)
      simp only [setV, if_neg hk]
      exact congrArg _ ih

theorem protoIncr_mapNum (l : List (Term × Nat)) (t : Term)
    (ht : protoKeyB t = false) :
    protoIncr (mapNum l) t = mapNum (assocIncr l t) := by
  have htp : t ≠ protoAccessorKey := by
    intro e
    rw [protoKeyB, e] at ht
    simp at ht
  unfold protoIncr protoSet
  rw [if_neg htp, protoRead_mapNum l t ht]
  by_cases hmem : t ∈ keys l
  · rw [if_pos hmem, protoIncrVal_num]
    exact setV_mapNum_incr l t
  · rw [if_neg hmem]
    have h0 : lookupD l t = 0 := lookupD_eq_zero_of_not_mem l t hmem
    rw [show protoIncrVal none = JsVal.num (lookupD l t + 1) from by rw [h0]; rfl]
    exact setV_mapNum_incr l t

theorem termScore_mapNum (l : List (Term × Nat)) (vlen : Nat) (t : Term)
    (ht : protoKeyB t = false) :
    termScore (mapNum l) vlen t =
      JsNum.num (jsLog (jsDiv ((lookupD l t : ℝ) + 1)
        ((valuesSum l : ℝ) + (vlen : ℝ)))) := by
  unfold termScore
  rw [protoRead_mapNum l t ht, valuesSumP_mapNum]
  by_cases hmem : t ∈ keys l
  · rw [if_pos hmem]
  · rw [if_neg hmem]
    rw [lookupD_eq_zero_of_not_mem l t hmem]
    norm_num

theorem termScore_tobj (wc : ProtoObj) (vlen : Nat) (t : Term)
    (h : protoRead wc t = some ReadVal.tobj) :
    termScore wc vlen t = JsNum.nan := by
  unfold termScore
  rw [h]
  cases valuesSumP wc <;> rfl

theorem foldlTokP_vocab (lab : Category) (l : List Term) :
    ∀ m : PModel, (l.foldl (tokStepP lab) m).vocab = l.foldl setAdd m.vocab := by
  induction l with
  | nil => intro m; rfl
  | cons t ts ih => intro m; rw [List.foldl_cons, ih]; rfl

theorem foldlTokP_classCounts (lab : Category) (l : List Term) :
    ∀ m : PModel, (l.foldl (tokStepP lab) m).classCounts = m.classCounts := by
  induction l with
  | nil => intro m; rfl
  | cons t ts ih => intro m; rw [List.foldl_cons, ih]; rfl

theorem foldlTokP_totalDocs (lab : Category) (l : List Term) :
    ∀ m : PModel, (l.foldl (tokStepP lab) m).totalDocs = m.totalDocs := by
  induction l with
  | nil => intro m; rfl
  | cons t ts ih => intro m; rw [List.foldl_cons, ih]; rfl

theorem trainP_aux_proj (docs : List Doc) :
    ∀ (mP : PModel) (mm : Model), mP.vocab = mm.vocab →
      mP.classCounts = mm.classCounts → mP.totalDocs = mm.totalDocs →
      (docs.foldl trainDocP mP).vocab = (docs.foldl trainDoc mm).vocab ∧
        (docs.foldl trainDocP mP).classCounts = (docs.foldl trainDoc mm).classCounts ∧
        (docs.foldl trainDocP mP).totalDocs = (docs.foldl trainDoc mm).totalDocs := by
  induction docs with
  | nil => exact fun mP mm hv hc ht => ⟨hv, hc, ht⟩
  | cons d ds ih =>
    intro mP mm hv hc ht
    rw [List.foldl_cons, List.foldl_cons]
    refine ih _ _ ?_ ?_ ?_
    · simp only [trainDocP, trainDoc]
      rw [foldlTokP_vocab, foldlTok_vocab]
      simp [hv]
    · simp only [trainDocP, trainDoc]
      rw [foldlTokP_classCounts, foldlTok_classCounts]
      simp [hc]
    · simp only [trainDocP, trainDoc]
      rw [foldlTokP_totalDocs, foldlTok_totalDocs]
      simp [ht]

theorem trainP_proj (docs : List Doc) :
    (trainP docs).vocab = (train docs).vocab ∧
      (trainP docs).classCounts = (train docs).classCounts ∧
      (trainP docs).totalDocs = (train docs).totalDocs :=
  trainP_aux_proj docs resetP resetModel rfl rfl rfl

theorem foldlTokP_wc (lab : Category) (l : List Term) :
    (∀ t ∈ l, protoKeyB t = false) →
    ∀ (mP : PModel) (mm : Model),
      (∀ c, mP.wordCounts c = mapNum (mm.wordCounts c)) →
      ∀ c, (l.foldl (tokStepP lab) mP).wordCounts c =
        mapNum ((l.foldl (tokStep lab) mm).wordCounts c) := by
  induction l with
  | nil => exact fun _ mP mm h c => h c
  | cons t ts ih =>
    intro hl mP mm h c
    rw [List.foldl_cons, List.foldl_cons]
    refine ih (fun u hu => hl u (List.mem_cons_of_mem t hu)) _ _ ?_ c
    intro c2
    simp only [tokStepP, tokStep]
    by_cases hc2 : c2 = lab
    · subst hc2
      simp only [Function.update_same]
      rw [h c2]
      exact protoIncr_mapNum (mm.wordCounts c2) t (hl t (List.mem_cons_self t ts))
    · simp only [Function.update_noteq hc2]
      exact h c2

theorem trainP_wc_aux (docs : List Doc) :
    cleanCorpus docs →
    ∀ (mP : PModel) (mm : Model),
      (∀ c, mP.wordCounts c = mapNum (mm.wordCounts c)) →
      ∀ c, (docs.foldl trainDocP mP).wordCounts c =
        mapNum ((docs.foldl trainDoc mm).wordCounts c) := by
  induction docs with
  | nil => exact fun _ mP mm h c => h c
  | cons d ds ih =>
    intro hclean mP mm h c
    rw [List.foldl_cons, List.foldl_cons]
    refine ih (fun x hx => hclean x (List.mem_cons_of_mem d hx)) _ _ ?_ c
    intro c2
    have hdclean : cleanText d.text := hclean d (List.mem_cons_self d ds)
    simp only [trainDocP, trainDoc]
    refine foldlTokP_wc d.label (tokenize d.text) hdclean _ _ (fun c3 => ?_) c2
    exact h c3

theorem trainP_wordCounts_clean (docs : List Doc) (hdocs : cleanCorpus docs)
    (c : Category) :
    (trainP docs).wordCounts c = mapNum ((train docs).wordCounts c) :=
  trainP_wc_aux docs hdocs resetP resetModel (fun _ => rfl) c

theorem scoreP_clean (docs : List Doc) (hdocs : cleanCorpus docs)
    (tokens : List Term) (htoks : ∀ t ∈ tokens, protoKeyB t = false) (c : Category) :
    scoreP (trainP docs) tokens c = JsNum.num (scoreOf (train docs) tokens c) := by
  obtain ⟨hv, hc, ht⟩ := trainP_proj docs
  have hw := trainP_wordCounts_clean docs hdocs c
  unfold scoreP
  rw [hw, hv, hc, ht]
  rw [foldl_jsAdd_congr _
    (fun t => JsNum.num (jsLog (jsDiv ((lookupD ((train docs).wordCounts c) t : ℝ) + 1)
      ((valuesSum ((train docs).wordCounts c) : ℝ) + ((train docs).vocab.length : ℝ)))))
    tokens (fun t htk => termScore_mapNum _ _ _ (htoks t htk)) _]
  rw [foldl_jsAdd_num]
  rfl

theorem predictP_snd (m : PModel) (text : List Char) :
    (predictP m text).2 = scoreP m (tokenize text) := rfl

theorem predictP_clean (docs : List Doc) (hdocs : cleanCorpus docs)
    (text : List Char) (htext : cleanText text) :
    predictP (trainP docs) text =
      ((predict (train docs) text).1,
        fun c => JsNum.num ((predict (train docs) text).2 c)) := by
  have hs : ∀ c, scoreP (trainP docs) (tokenize text) c =
      JsNum.num (scoreOf (train docs) (tokenize text) c) :=
    fun c => scoreP_clean docs hdocs (tokenize text) htext c
  refine Prod.ext ?_ ?_
  · show (predictP (trainP docs) text).1 = (predict (train docs) text).1
    simp only [predictP, predict]
    rw [hs Category.Positive, hs Category.Negative, hs Category.Neutral]
    split_ifs <;>
      first
        | rfl
        | simp_all [jsGt, gt_iff_lt]
  · show (predictP (trainP docs) text).2 = _
    rw [predictP_snd]
    funext c
    rw [hs c, predict_snd]

theorem cleanCorpus_append_cons (pre post : List Doc) (T : List Char) (lab : Category)
    (hpre : cleanCorpus pre) (hpost : cleanCorpus post) (hT : cleanText T) :
    cleanCorpus (pre ++ ⟨T, lab⟩ :: post) := by
  intro d hd
  rcases List.mem_append.mp hd with h | h
  · exact hpre d h
  · rcases List.mem_cons.mp h with rfl | h2
    · exact hT
    · exact hpost d h2

/-- C4, counterexample: fit on the single Positive document `"good stuff"`,
then predict the text `"constructor"`: its sole token reads the inherited
`Object.prototype.constructor` (a truthy object) at line 88, so
`tokenCount + 1` is a string concatenation and the token's `Math.log`
argument is `NaN` — the Positive score is `NaN`, which is not equal to any
number, let alone the claimed log-probability formula. -/
theorem claim_C4_counterexample :
    ¬ ∃ x : EReal,
      (predictP (trainP [⟨"good stuff".toList, Category.Positive⟩])
          "constructor".toList).2 Category.Positive = JsNum.num x := by
  rintro ⟨x, hx⟩
  have h : (predictP (trainP [⟨"good stuff".toList, Category.Positive⟩])
      "constructor".toList).2 Category.Positive = JsNum.nan := rfl
  rw [h] at hx
  exact JsNum.noConfusion hx

/-- C4, amended: for a corpus and an input text free of the prototype-chain
tokens `"constructor"` and `"__proto__"`, the score `predict` assigns to a
category is the number `log(max(classCount, 0.1) / max(totalDocs, 1))` plus,
per token occurrence, `log((termFreq + 1) / (classTotalWords + vocabSize))`;
with such a token in the input (or in the corpus) the score can instead be
`NaN`, as the counterexample shows. -/
theorem claim_C4 (docs : List Doc) (text : List Char) (c : Category)
    (hdocs : cleanCorpus docs) (htext : cleanText text) :
    (predictP (trainP docs) text).2 c =
      JsNum.num (specScore (train docs) (tokenize text) c) := by
  rw [predictP_snd, scoreP_clean docs hdocs _ htext c]
  have h := scoreOf_train_spec docs text c
  rw [predict_snd] at h
  exact congrArg JsNum.num h

/-- C4, witness: the corpus `[{text: "good stuff", label: Positive}]` and the
input `"great"` contain no prototype-chain token. -/
theorem claim_C4_witness :
    cleanCorpus [⟨"good stuff".toList, Category.Positive⟩] ∧
      cleanText "great".toList ∧
      (predictP (trainP [⟨"good stuff".toList, Category.Positive⟩])
          "great".toList).2 Category.Positive =
        JsNum.num (specScore (train [⟨"good stuff".toList, Category.Positive⟩])
          (tokenize "great".toList) Category.Positive) :=
  ⟨by decide, by decide, claim_C4 _ _ _ (by decide) (by decide)⟩

/-- C5: `predict` evaluates the categories in the fixed order Positive,
Negative, Neutral, starting from a running best of Neutral with score
`-Infinity` and replacing the running best exactly when a category's score
is strictly greater under the JS `>` (on which every comparison involving
`NaN` is false): the label is characterised by the nested strict
comparisons below — in particular exact ties resolve to the
earliest-evaluated category, and an exact three-way tie of scores that are
numbers above `-Infinity` yields Positive. -/
theorem claim_C5 (m : PModel) (text : List Char) :
    ((predictP m text).1 =
      (if jsGt (scoreP m (tokenize text) Category.Positive) (JsNum.num ⊥) then
        (if jsGt (scoreP m (tokenize text) Category.Negative)
            (scoreP m (tokenize text) Category.Positive) then
          (if jsGt (scoreP m (tokenize text) Category.Neutral)
              (scoreP m (tokenize text) Category.Negative) then Category.Neutral
           else Category.Negative)
         else
          (if jsGt (scoreP m (tokenize text) Category.Neutral)
              (scoreP m (tokenize text) Category.Positive) then Category.Neutral
           else Category.Positive))
       else
        (if jsGt (scoreP m (tokenize text) Category.Negative) (JsNum.num ⊥) then
          (if jsGt (scoreP m (tokenize text) Category.Neutral)
              (scoreP m (tokenize text) Category.Negative) then Category.Neutral
           else Category.Negative)
         else Category.Neutral))) ∧
      ∀ x : EReal, (⊥ : EReal) < x →
        (∀ c, scoreP m (tokenize text) c = JsNum.num x) →
        (predictP m text).1 = Category.Positive := by
  constructor
  · simp only [predictP]
    split_ifs <;>
      first
        | rfl
        | simp_all [jsGt]
  · intro x hx hs
    simp only [predictP]
    rw [hs Category.Positive, hs Category.Negative, hs Category.Neutral]
    rw [if_pos (show jsGt (JsNum.num x) (JsNum.num ⊥) from hx)]
    rw [if_neg (show ¬ jsGt (JsNum.num x)
      (Category.Positive, JsNum.num x).2 from fun h => lt_irrefl x h)]
    rw [if_neg (show ¬ jsGt (JsNum.num x)
      (Category.Positive, JsNum.num x).2 from fun h => lt_irrefl x h)]

/-- C6, counterexample: the corpus `[{text: "constructor", label: Negative}]`
classifies its own document; relabelling it Positive and re-fitting leaves
both Positive scores `NaN` (the token reads the inherited truthy
`constructor` property in either fit), and under the JS `>=` a `NaN` score
is *not* greater than or equal to a `NaN` score, so the claimed
non-decrease fails. -/
theorem claim_C6_counterexample :
    (predictP (trainP [⟨"constructor".toList, Category.Negative⟩])
        "constructor".toList).2 Category.Positive = JsNum.nan ∧
      (predictP (trainP [⟨"constructor".toList, Category.Positive⟩])
        "constructor".toList).2 Category.Positive = JsNum.nan ∧
      ¬ jsGe
        ((predictP (trainP [⟨"constructor".toList, Category.Positive⟩])
          "constructor".toList).2 Category.Positive)
        ((predictP (trainP [⟨"constructor".toList, Category.Negative⟩])
          "constructor".toList).2 Category.Positive) := by
  refine ⟨rfl, rfl, ?_⟩
  intro h
  exact h

/-- C6, amended: for a relabelled document whose text — like the rest of the
corpus — is free of the prototype-chain tokens, relabelling it from Negative
to Positive and re-fitting never decreases the Positive score of the
document's own text (both scores are then genuine numbers and the JS `>=`
holds); with a prototype-chain token both scores are `NaN` and the
comparison fails, as the counterexample shows. -/
theorem claim_C6 (pre post : List Doc) (T : List Char)
    (hpre : cleanCorpus pre) (hpost : cleanCorpus post) (hT : cleanText T) :
    jsGe
      ((predictP (trainP (pre ++ ⟨T, Category.Positive⟩ :: post)) T).2
        Category.Positive)
      ((predictP (trainP (pre ++ ⟨T, Category.Negative⟩ :: post)) T).2
        Category.Positive) := by
  have hc1 : cleanCorpus (pre ++ ⟨T, Category.Positive⟩ :: post) :=
    cleanCorpus_append_cons pre post T Category.Positive hpre hpost hT
  have hc2 : cleanCorpus (pre ++ ⟨T, Category.Negative⟩ :: post) :=
    cleanCorpus_append_cons pre post T Category.Negative hpre hpost hT
  rw [predictP_snd, predictP_snd, scoreP_clean _ hc1 _ hT _, scoreP_clean _ hc2 _ hT _]
  show scoreOf (train (pre ++ ⟨T, Category.Negative⟩ :: post)) (tokenize T)
      Category.Positive ≤
    scoreOf (train (pre ++ ⟨T, Category.Positive⟩ :: post)) (tokenize T)
      Category.Positive
  have h := predict_relabel_le pre post T
  rw [predict_snd, predict_snd] at h
  exact h

/-- C6, witness: the one-document corpus `"good stuff"` relabelled from
Negative to Positive; no prototype-chain token occurs. -/
theorem claim_C6_witness :
    cleanCorpus ([] : List Doc) ∧ cleanText "good stuff".toList ∧
      jsGe
        ((predictP (trainP ([] ++ ⟨"good stuff".toList, Category.Positive⟩ :: []))
          "good stuff".toList).2 Category.Positive)
        ((predictP (trainP ([] ++ ⟨"good stuff".toList, Category.Negative⟩ :: []))
          "good stuff".toList).2 Category.Positive) :=
  ⟨by decide, by decide, claim_C6 [] [] _ (by decide) (by decide) (by decide)⟩

/-- C7, counterexample: the model fitted on `[{text: "nice app", label:
Positive}]` is reachable by `fit`, and on the input `"constructor"` the
Positive score is `NaN` (the token reads the inherited truthy `constructor`
property), which is not a number of any kind — contradicting the claimed
never-`NaN` guarantee. -/
theorem claim_C7_counterexample :
    (predictP (trainP [⟨"nice app".toList, Category.Positive⟩])
        "constructor".toList).2 Category.Positive = JsNum.nan ∧
      ∀ x : EReal, JsNum.nan ≠ JsNum.num x :=
  ⟨rfl, fun _ h => JsNum.noConfusion h⟩

/-- C7, amended: the label is always one of the three categories and all
three score entries are present; when neither the corpus nor the input text
contains a prototype-chain token, every score is the number
`scoreOf` computes — never `NaN`, never `-Infinity`, and `+Infinity` exactly
when the fitted vocabulary is empty while the input has at least one token.
(With a prototype-chain token a score can be `NaN`, as the counterexample
shows.) -/
theorem claim_C7 (docs : List Doc) (text : List Char) (c : Category)
    (hdocs : cleanCorpus docs) (htext : cleanText text) :
    ((predictP (trainP docs) text).1 = Category.Positive ∨
      (predictP (trainP docs) text).1 = Category.Negative ∨
      (predictP (trainP docs) text).1 = Category.Neutral) ∧
      (predictP (trainP docs) text).2 c =
        JsNum.num (scoreOf (train docs) (tokenize text) c) ∧
      scoreOf (train docs) (tokenize text) c ≠ ⊥ ∧
      (scoreOf (train docs) (tokenize text) c = ⊤ ↔
        ((train docs).vocab = [] ∧ tokenize text ≠ [])) := by
  obtain ⟨h1, h2, h3⟩ := predict_train_safety docs text c
  rw [predict_snd] at h2 h3
  refine ⟨?_, ?_, h2, h3⟩
  · cases h : (predictP (trainP docs) text).1
    · exact Or.inl rfl
    · exact Or.inr (Or.inl rfl)
    · exact Or.inr (Or.inr rfl)
  · rw [predictP_snd, scoreP_clean docs hdocs _ htext c]

/-- C7, witness: the empty corpus and the clean input `"hello"`. -/
theorem claim_C7_witness :
    cleanCorpus ([] : List Doc) ∧ cleanText "hello".toList ∧
      (((predictP (trainP []) "hello".toList).1 = Category.Positive ∨
        (predictP (trainP []) "hello".toList).1 = Category.Negative ∨
        (predictP (trainP []) "hello".toList).1 = Category.Neutral) ∧
        (predictP (trainP []) "hello".toList).2 Category.Positive =
          JsNum.num (scoreOf (train []) (tokenize "hello".toList) Category.Positive) ∧
        scoreOf (train []) (tokenize "hello".toList) Category.Positive ≠ ⊥ ∧
        (scoreOf (train []) (tokenize "hello".toList) Category.Positive = ⊤ ↔
          ((train []).vocab = [] ∧ tokenize "hello".toList ≠ []))) :=
  ⟨by decide, by decide, claim_C7 [] "hello".toList Category.Positive
    (by decide) (by decide)⟩

/-- C9, counterexample: fit on `[{text: "__proto__", label: Positive}]` puts
`"__proto__"` into the vocabulary, but the write
`wordCounts['Positive']['__proto__'] = …` hits the inherited `__proto__`
setter, which stores nothing — all three term-frequency maps stay empty, so
the vocabulary is not the union of their key sets.  And fit on
`[{text: "constructor", label: Positive}]` stores under `"constructor"` a
string (from object-plus-number concatenation), not a count. -/
theorem claim_C9_counterexample :
    (trainP [⟨"__proto__".toList, Category.Positive⟩]).vocab =
        [protoAccessorKey] ∧
      keysV ((trainP [⟨"__proto__".toList, Category.Positive⟩]).wordCounts
        Category.Positive) = [] ∧
      keysV ((trainP [⟨"__proto__".toList, Category.Positive⟩]).wordCounts
        Category.Negative) = [] ∧
      keysV ((trainP [⟨"__proto__".toList, Category.Positive⟩]).wordCounts
        Category.Neutral) = [] ∧
      lookupV ((trainP [⟨"constructor".toList, Category.Positive⟩]).wordCounts
        Category.Positive) constructorKey = some JsVal.objStr :=
  ⟨rfl, rfl, rfl, rfl, rfl⟩

/-- C9, amended: after every fit call, the three class counts sum to the
total document count (for any corpus); and when the corpus is free of
prototype-chain tokens, every stored term-frequency value is a (non-negative)
count and the vocabulary is exactly the union of the key sets of the three
term-frequency maps.  (With prototype-chain tokens both statements about the
maps fail, as the counterexample shows.) -/
theorem claim_C9 (docs : List Doc) :
    ((trainP docs).classCounts Category.Positive +
        (trainP docs).classCounts Category.Negative +
        (trainP docs).classCounts Category.Neutral = (trainP docs).totalDocs) ∧
      (cleanCorpus docs →
        (∀ c, ∀ p ∈ (trainP docs).wordCounts c, ∃ n : Nat, p.2 = JsVal.num n) ∧
        (∀ t, t ∈ (trainP docs).vocab ↔
          (t ∈ keysV ((trainP docs).wordCounts Category.Positive) ∨
            t ∈ keysV ((trainP docs).wordCounts Category.Negative) ∨
            t ∈ keysV ((trainP docs).wordCounts Category.Neutral)))) := by
  obtain ⟨hv, hc, ht⟩ := trainP_proj docs
  obtain ⟨hsum, -, hvu⟩ := train_invariants docs
  constructor
  · rw [hc, ht]
    exact hsum
  · intro hclean
    have hw : ∀ c, (trainP docs).wordCounts c = mapNum ((train docs).wordCounts c) :=
      fun c => trainP_wordCounts_clean docs hclean c
    have hkeys : ∀ l, keysV (mapNum l) = keys l := by
      intro l
      unfold keysV mapNum keys
      rw [List.map_map]
      exact List.map_congr_left (fun p _ => rfl)
    constructor
    · intro c p hp
      rw [hw c] at hp
      obtain ⟨q, hq, rfl⟩ := List.mem_map.mp hp
      exact ⟨q.2, rfl⟩
    · intro t
      rw [hv, hw, hw, hw, hkeys, hkeys, hkeys]
      exact hvu t

end Sentimind
